import Mathlib

/-!
# A verification development for the `cbored` CBOR codec

This file gives a shallow embedding, in Lean 4, of the core of the `cbored`
Rust crate: the lead/header decoder (`src/lowlevel/lead.rs`,
`src/header.rs`), the structural state machine (`src/state.rs`), the
byte-cursor (`src/context.rs`), the standalone validator
(`src/validate.rs`), the typed reader (`src/reader.rs`) and the canonical
writer (`src/writer.rs`), together with theorems about canonical integer
encoding, error reporting, structural validation and stream framing.

Conventions of the embedding:

* A Rust `u8` buffer byte is modelled as `Fin 256` (named `u8` below);
  wider machine integers that appear as *values* (`u16`, `u32`, `u64`,
  `usize`) are modelled as `Nat`, with the bounds coming from how the
  values are built out of bytes.
* A Rust function that can panic (an `assert!`, an `unreachable!`, a
  `panic!` call, or an out-of-bounds slice index) is modelled in the
  `Option` layer: `none` means the Rust code would panic, and
  `some (Except.error e)` / `some (Except.ok a)` are the ordinary
  `Result` outcomes.
* The `Vec<StructTy>` stack of the state machine is modelled as a
  `List StructTy` whose HEAD is the TOP of the stack (`Vec::last` is
  `List.head?`, `Vec::push` is `List.cons`).
* Loops (`Validator::next`, `Reader::cbor_slice_neutral`,
  `State::check_reduce`) are modelled with an explicit fuel argument; a
  distinguished `fuelOut` result marks fuel exhaustion, and the fuel
  actually supplied is proven sufficient where it matters (the cursor
  strictly advances on every iteration, and `check_reduce` pops a frame
  on every iteration).
-/

namespace Cbored

/-- A buffer byte (Rust `u8`). -/
abbrev u8 := Fin 256

/-- Truncate a natural number to a byte (Rust's `as u8` / big-endian byte
extraction always applies a `% 256`). -/
def byteOf (n : Nat) : u8 := ⟨n % 256, Nat.mod_lt _ (by decide)⟩

/-! ## `HeaderValue` (src/lowlevel/header.rs and src/header.rs, `Value`)

The crate contains this type twice (as `Value` in `src/header.rs` and as
`HeaderValue` in `src/lowlevel/header.rs`); the two definitions and all
their methods shown here are textually identical, so a single Lean type
embeds both.  The one function on which the two files differ,
`resolve_value_stream`, is embedded separately below. -/

/-- The five size tiers of an integer-valued CBOR header. -/
inductive HeaderValue where
  | Imm (v : Nat)
  | U8 (v : Nat)
  | U16 (v : Nat)
  | U32 (v : Nat)
  | U64 (v : Nat)
deriving DecidableEq, Repr

namespace HeaderValue

/-- `HeaderValue::to_u64` (also `to_size`: on the 64-bit target the two
agree numerically). -/
def to_u64 : HeaderValue → Nat
  | Imm u => u
  | U8 u => u
  | U16 u => u
  | U32 u => u
  | U64 u => u

/-- `HeaderValue::canonical`. -/
def canonical (v : Nat) : HeaderValue :=
  if v < 24 then Imm v
  else if v < 0x100 then U8 v
  else if v < 0x10000 then U16 v
  else if v < 0x100000000 then U32 v
  else U64 v

/-- `HeaderValue::is_canonical`. -/
def is_canonical : HeaderValue → Bool
  | Imm _ => true
  | U8 v => decide (24 ≤ v)
  | U16 v => decide (0x100 ≤ v)
  | U32 v => decide (0x10000 ≤ v)
  | U64 v => decide (0x100000000 ≤ v)

/-- The number of trailing bytes a tier occupies on the wire (0 for the
immediate tier, 1/2/4/8 for the indirect tiers); the claim's notion of a
tier being "wider" or "narrower". -/
def width : HeaderValue → Nat
  | Imm _ => 0
  | U8 _ => 1
  | U16 _ => 2
  | U32 _ => 4
  | U64 _ => 8

/-- Well-formedness of a header value as it arises from decoding: the
immediate field of a lead byte is at most 23, and an indirect value is
bounded by the width of its big-endian representation. -/
def WF : HeaderValue → Prop
  | Imm v => v < 24
  | U8 v => v < 0x100
  | U16 v => v < 0x10000
  | U32 v => v < 0x100000000
  | U64 v => v < 0x10000000000000000

instance : DecidablePred WF := by
  intro hv; unfold WF; cases hv <;> infer_instance

end HeaderValue

/-- `HeaderValue8` (the value of a CBOR `Byte` item). -/
inductive HeaderValue8 where
  | Imm (v : Nat)
  | U8 (v : Nat)
deriving DecidableEq, Repr

/-! ## Lead byte decoding (src/lowlevel/lead.rs) -/

/-- The 3-bit major type of a lead byte. -/
inductive Major where
  | Positive | Negative | Bytes | Text | Array | Map | Tag | Other
deriving DecidableEq, Repr

namespace Major

/-- `Major::from_byte`: the top three bits of the lead byte.  Because the
argument is a byte, `v >> 5` is below 8 and the `unreachable!` arm of the
Rust `match` is genuinely dead, so the embedding is total. -/
def from_byte (b : u8) : Major :=
  let v := b.val >>> 5
  if v = 0 then .Positive
  else if v = 1 then .Negative
  else if v = 2 then .Bytes
  else if v = 3 then .Text
  else if v = 4 then .Array
  else if v = 5 then .Map
  else if v = 6 then .Tag
  else .Other

/-- `Major::to_value`. -/
def to_value : Major → Nat
  | .Positive => 0
  | .Negative => 1
  | .Bytes => 2
  | .Text => 3
  | .Array => 4
  | .Map => 5
  | .Tag => 6
  | .Other => 7

/-- `Major::to_high_bits`. -/
def to_high_bits (m : Major) : Nat := m.to_value <<< 5

end Major

/-- Length selector of an indirect content field. -/
inductive IndirectLen where
  | I1 | I2 | I4 | I8
deriving DecidableEq, Repr

/-- `IndirectLen::len_bytes`. -/
def IndirectLen.len_bytes : IndirectLen → Nat
  | .I1 => 1
  | .I2 => 2
  | .I4 => 4
  | .I8 => 8

/-- The big-endian value read from the trailing bytes of a header. -/
inductive IndirectValue where
  | U8 (v : Nat)
  | U16 (v : Nat)
  | U32 (v : Nat)
  | U64 (v : Nat)
deriving DecidableEq, Repr

/-- `impl From<IndirectValue> for HeaderValue` (identical to the
`From<IndirectValue> for Value` impl of src/header.rs). -/
def IndirectValue.toHeaderValue : IndirectValue → HeaderValue
  | .U8 v => .U8 v
  | .U16 v => .U16 v
  | .U32 v => .U32 v
  | .U64 v => .U64 v

/-- `LeadError`: malformed lead byte. -/
inductive LeadError where
  | IndefiniteNotSupported (b : Nat)
  | Reserved (b : Nat)
deriving DecidableEq, Repr

/-- The 5-bit content field of a lead byte where indefinite is not legal. -/
inductive Content where
  | Imm (v : Nat)
  | Indirect (l : IndirectLen)
deriving DecidableEq, Repr

namespace Content

/-- `Content::from_byte` (content mask `0b0001_1111`); the masked value is
at most `0x1f`, so the `unreachable!` arm is dead and the embedding is
total. -/
def from_byte (byte : u8) : Except LeadError Content :=
  let b := byte.val &&& 0x1f
  if b ≤ 0x17 then .ok (.Imm b)
  else if b = 0x18 then .ok (.Indirect .I1)
  else if b = 0x19 then .ok (.Indirect .I2)
  else if b = 0x1a then .ok (.Indirect .I4)
  else if b = 0x1b then .ok (.Indirect .I8)
  else if b ≤ 0x1e then .error (.Reserved byte.val)
  else .error (.IndefiniteNotSupported byte.val)

/-- `Content::expected_extra`. -/
def expected_extra : Content → Option IndirectLen
  | .Imm _ => none
  | .Indirect i => some i

/-- `Content::to_byte`; the `Imm` arm asserts `v <= 0x17`, so the
embedding returns `none` (panic) when the assertion would fail. -/
def to_byte : Content → Option Nat
  | .Imm v => if v ≤ 0x17 then some v else none
  | .Indirect .I1 => some 0x18
  | .Indirect .I2 => some 0x19
  | .Indirect .I4 => some 0x1a
  | .Indirect .I8 => some 0x1b

end Content

/-- The 5-bit content field of a lead byte where indefinite (selector 31)
is legal. -/
inductive ContentStream where
  | Imm (v : Nat)
  | Indirect (l : IndirectLen)
  | Stream
deriving DecidableEq, Repr

namespace ContentStream

/-- `ContentStream::from_byte`. -/
def from_byte (byte : u8) : Except LeadError ContentStream :=
  let b := byte.val &&& 0x1f
  if b ≤ 0x17 then .ok (.Imm b)
  else if b = 0x18 then .ok (.Indirect .I1)
  else if b = 0x19 then .ok (.Indirect .I2)
  else if b = 0x1a then .ok (.Indirect .I4)
  else if b = 0x1b then .ok (.Indirect .I8)
  else if b ≤ 0x1e then .error (.Reserved byte.val)
  else .ok .Stream

/-- `ContentStream::expected_extra`. -/
def expected_extra : ContentStream → Option IndirectLen
  | .Imm _ => none
  | .Indirect i => some i
  | .Stream => none

/-- `ContentStream::to_byte`; as with `Content::to_byte` the `Imm` arm
asserts `v <= 0x17`. -/
def to_byte : ContentStream → Option Nat
  | .Imm v => if v ≤ 0x17 then some v else none
  | .Indirect .I1 => some 0x18
  | .Indirect .I2 => some 0x19
  | .Indirect .I4 => some 0x1a
  | .Indirect .I8 => some 0x1b
  | .Stream => some 0x1f

/-- `impl From<Option<Content>> for ContentStream`. -/
def ofOptionContent : Option Content → ContentStream
  | none => .Stream
  | some (.Imm v) => .Imm v
  | some (.Indirect l) => .Indirect l

end ContentStream

/-- The fully classified lead byte. -/
inductive Lead where
  | Positive (c : Content)
  | Negative (c : Content)
  | Bytes (c : ContentStream)
  | Text (c : ContentStream)
  | Array (c : ContentStream)
  | Map (c : ContentStream)
  | Tag (c : Content)
  | ByteImm (v : Nat)
  | False
  | True
  | Null
  | Undefined
  | ByteI1
  | FP16
  | FP32
  | FP64
  | Break
deriving DecidableEq, Repr

namespace Lead

/-- `Lead::special` (the `Major::Other` table). -/
def special (byte : u8) : Except LeadError Lead :=
  let b := byte.val &&& 0x1f
  if b ≤ 0x13 then .ok (.ByteImm b)
  else if b = 0x14 then .ok .False
  else if b = 0x15 then .ok .True
  else if b = 0x16 then .ok .Null
  else if b = 0x17 then .ok .Undefined
  else if b = 0x18 then .ok .ByteI1
  else if b = 0x19 then .ok .FP16
  else if b = 0x1a then .ok .FP32
  else if b = 0x1b then .ok .FP64
  else if b ≤ 0x1e then .error (.Reserved b)
  else .ok .Break

/-- `Lead::from_byte`. -/
def from_byte (b : u8) : Except LeadError Lead :=
  match Major.from_byte b with
  | .Positive => (Content.from_byte b).map .Positive
  | .Negative => (Content.from_byte b).map .Negative
  | .Bytes => (ContentStream.from_byte b).map .Bytes
  | .Text => (ContentStream.from_byte b).map .Text
  | .Array => (ContentStream.from_byte b).map .Array
  | .Map => (ContentStream.from_byte b).map .Map
  | .Tag => (Content.from_byte b).map .Tag
  | .Other => special b

/-- `Lead::expected_extra`. -/
def expected_extra : Lead → Option IndirectLen
  | .Positive c => c.expected_extra
  | .Negative c => c.expected_extra
  | .Bytes c => c.expected_extra
  | .Text c => c.expected_extra
  | .Array c => c.expected_extra
  | .Map c => c.expected_extra
  | .Tag c => c.expected_extra
  | .ByteImm _ => none
  | .False => none
  | .True => none
  | .Null => none
  | .Undefined => none
  | .ByteI1 => some .I1
  | .FP16 => some .I2
  | .FP32 => some .I4
  | .FP64 => some .I8
  | .Break => none

end Lead

/-! ## The CBOR data-model types (src/types/) -/

/-- `Positive` (src/types/scalar.rs): a positive integer with its encoded
tier. -/
structure Positive where
  val : HeaderValue
deriving DecidableEq, Repr

/-- `Negative` (src/types/scalar.rs): the integer `-1 - val`. -/
structure Negative where
  val : HeaderValue
deriving DecidableEq, Repr

/-- `Byte` (src/types/scalar.rs). -/
structure Byte where
  val : HeaderValue8
deriving DecidableEq, Repr

/-- `Constant` (src/types/scalar.rs). -/
inductive Constant where
  | False | True | Null | Undefined
deriving DecidableEq, Repr

/-- `Float` (src/types/float.rs): raw IEEE754 bit patterns. -/
inductive Float where
  | FP16 (v : Nat)
  | FP32 (v : Nat)
  | FP64 (v : Nat)
deriving DecidableEq, Repr

/-- `Type` (src/types/mod.rs); named `Ty` here because `Type` is a Lean
keyword. -/
inductive Ty where
  | Positive | Negative | Bytes | Text | Array | Map | Tag
  | False | True | Null | Undefined | Float | Byte | Break
deriving DecidableEq, Repr

/-- `Type::from_lead`. -/
def Ty.from_lead : Lead → Ty
  | .Positive _ => .Positive
  | .Negative _ => .Negative
  | .Bytes _ => .Bytes
  | .Text _ => .Text
  | .Array _ => .Array
  | .Map _ => .Map
  | .Tag _ => .Tag
  | .ByteImm _ => .Byte
  | .False => .False
  | .True => .True
  | .Null => .Null
  | .Undefined => .Undefined
  | .ByteI1 => .Byte
  | .FP16 => .Float
  | .FP32 => .Float
  | .FP64 => .Float
  | .Break => .Break

/-- `StructureLength` (src/types/structure.rs). -/
inductive StructureLength where
  | Indefinite
  | Definite (v : HeaderValue)
deriving DecidableEq, Repr

/-- `StructureLength::is_indefinite`. -/
def StructureLength.is_indefinite : StructureLength → Bool
  | .Indefinite => true
  | .Definite _ => false

/-- `impl From<Option<Value>> for StructureLength`. -/
def StructureLength.ofOption : Option HeaderValue → StructureLength
  | none => .Indefinite
  | some v => .Definite v

/-! ## The resolved header (src/header.rs)

`src/header.rs` is the copy of the header module that the crate's
`reader`, `state` and `validate` modules link against (`lib.rs` declares
`pub(crate) mod header;`, and `reader.rs`/`state.rs`/`validate.rs` import
`super::header::*`).  Its `resolve_value_stream` maps an immediate content
field to the `U8` tier; the sibling copy in `src/lowlevel/header.rs` maps
it to the `Imm` tier instead.  Both are embedded; the crate-level one is
the one used by `Header.from_parts`. -/

/-- `resolve_value` (src/header.rs); the wildcard arm is
`panic!("internal error")`. -/
def resolve_value : Content → Option IndirectValue → Option HeaderValue
  | .Imm imm, none => some (.Imm imm)
  | .Indirect _, some value => some value.toHeaderValue
  | _, _ => none

/-- `resolve_value_stream` as defined in src/header.rs lines 95-102: note
the `Imm` arm produces `Value::U8(v)`, i.e. the `U8` tier. -/
def resolve_value_stream :
    ContentStream → Option IndirectValue → Option (Option HeaderValue)
  | .Stream, _ => some none
  | .Imm v, _ => some (some (.U8 v))
  | .Indirect _, some val => some (some val.toHeaderValue)
  | _, _ => none

/-- `resolve_value_stream` as defined in src/lowlevel/header.rs lines
95-105: the `Imm` arm keeps the immediate tier. -/
def lowlevel_resolve_value_stream :
    ContentStream → Option IndirectValue → Option (Option HeaderValue)
  | .Stream, _ => some none
  | .Imm v, _ => some (some (.Imm v))
  | .Indirect _, some val => some (some val.toHeaderValue)
  | _, _ => none

/-- `Header` (src/header.rs): a fully resolved item header. -/
inductive Header where
  | Positive (p : Positive)
  | Negative (n : Negative)
  | Bytes (c : Option HeaderValue)
  | Text (c : Option HeaderValue)
  | Array (c : Option HeaderValue)
  | Map (c : Option HeaderValue)
  | Tag (v : HeaderValue)
  | Constant (c : Constant)
  | Float (f : Float)
  | Byte (b : Byte)
  | Break
deriving DecidableEq, Repr

namespace Header

/-- `Header::to_type`. -/
def to_type : Header → Ty
  | .Positive _ => .Positive
  | .Negative _ => .Negative
  | .Bytes _ => .Bytes
  | .Text _ => .Text
  | .Array _ => .Array
  | .Map _ => .Map
  | .Tag _ => .Tag
  | .Constant .True => .True
  | .Constant .False => .False
  | .Constant .Null => .Null
  | .Constant .Undefined => .Undefined
  | .Float _ => .Float
  | .Byte _ => .Byte
  | .Break => .Break

/-- The inner `other_payload` helper of `Header::from_parts`; the `None`
arm is `panic!("internal error")`. -/
def other_payload : Option IndirectValue → Option Header
  | some (.U8 v) => some (.Byte ⟨.U8 v⟩)
  | some (.U16 v) => some (.Float (.FP16 v))
  | some (.U32 v) => some (.Float (.FP32 v))
  | some (.U64 v) => some (.Float (.FP64 v))
  | none => none

/-- `Header::from_parts` (src/header.rs). -/
def from_parts (ld : Lead) (ival : Option IndirectValue) : Option Header :=
  match ld with
  | .Positive c => (resolve_value c ival).map (fun v => .Positive ⟨v⟩)
  | .Negative c => (resolve_value c ival).map (fun v => .Negative ⟨v⟩)
  | .Bytes c => (resolve_value_stream c ival).map .Bytes
  | .Text c => (resolve_value_stream c ival).map .Text
  | .Array c => (resolve_value_stream c ival).map .Array
  | .Map c => (resolve_value_stream c ival).map .Map
  | .Tag c => (resolve_value c ival).map .Tag
  | .ByteImm v => some (.Byte ⟨.Imm v⟩)
  | .False => some (.Constant .False)
  | .True => some (.Constant .True)
  | .Null => some (.Constant .Null)
  | .Undefined => some (.Constant .Undefined)
  | .ByteI1 => other_payload ival
  | .FP16 => other_payload ival
  | .FP32 => other_payload ival
  | .FP64 => other_payload ival
  | .Break => some .Break

end Header

/-! ## The structural state machine (src/state.rs) -/

instance {E A : Type} [DecidableEq E] [DecidableEq A] :
    DecidableEq (Except E A) := fun
  | .error e1, .error e2 =>
    if h : e1 = e2 then isTrue (by rw [h])
    else isFalse (by intro hh; cases hh; exact h rfl)
  | .error _, .ok _ => isFalse (by intro hh; cases hh)
  | .ok _, .error _ => isFalse (by intro hh; cases hh)
  | .ok a1, .ok a2 =>
    if h : a1 = a2 then isTrue (by rw [h])
    else isFalse (by intro hh; cases hh; exact h rfl)

/-- Plumbing for the panic layer: `none` is a panic, `some (.error e)` a
returned `Err`, `some (.ok a)` a returned `Ok`. -/
abbrev PRes (E A : Type) := Option (Except E A)

/-- Lift a value into the panic layer. -/
def pok {E A : Type} (a : A) : PRes E A := some (.ok a)

/-- Lift an error into the panic layer. -/
def perr {E A : Type} (e : E) : PRes E A := some (.error e)

/-- Sequencing in the panic layer. -/
def pbind {E A B : Type} : PRes E A → (A → PRes E B) → PRes E B
  | none, _ => none
  | some (.error e), _ => some (.error e)
  | some (.ok a), f => f a

/-- `StreamType` (src/state.rs). -/
inductive StreamType where
  | Array
  | Map (b : Bool)
  | Bytes
  | Text
deriving DecidableEq, Repr

/-- `StreamType::composite_scalar`. -/
def StreamType.composite_scalar : StreamType → Bool
  | .Array | .Map _ => false
  | .Bytes | .Text => true

/-- `StructTy` (src/state.rs): one frame of the validation stack. -/
inductive StructTy where
  | Array (elements : Nat)
  | Map (exp_val : Bool) (elements : Nat)
  | Stream (s : StreamType)
  | Tag (filled : Bool)
deriving DecidableEq, Repr

/-- `StructTy::reduceable`. -/
def StructTy.reduceable : StructTy → Bool
  | .Array elements => elements = 0
  | .Map _ elements => elements = 0
  | .Tag t => t
  | .Stream _ => false

/-- `StateError` (src/state.rs). -/
inductive StateError where
  | BreakInNonStreamable
  | BreakEmptyStack
  | ChunksInChunks
  | StructureInChunks
  | StructureNotFinished
  | StructureEndNotInStructure
  | InvalidTypeInChunk
  | TagNotFinished
  | TagInChunk
deriving DecidableEq, Repr

/-- The `ctx` stack of `State`; the list head is the stack top. -/
abbrev Ctx := List StructTy

namespace State

/-- `State::new`. -/
def new : Ctx := []

/-- `State::acceptable`. -/
def acceptable (ctx : Ctx) : Bool := ctx.isEmpty

/-- `State::advance`; the `assert_ne!` failures are panics (`none`). -/
def advance : Ctx → Option Ctx
  | [] => some []
  | f :: rest =>
    match f with
    | .Array z => if z = 0 then none else some (.Array (z - 1) :: rest)
    | .Map exp_val elements =>
      if exp_val then some (.Map false elements :: rest)
      else if elements = 0 then none
      else some (.Map exp_val (elements - 1) :: rest)
    | .Tag finished => if finished then none else some (.Tag true :: rest)
    | .Stream sty => some (.Stream sty :: rest)

/-- `State::reduce`: pop the top frame, requiring it to be complete. -/
def reduce : Ctx → Except StateError Ctx
  | [] => .error .StructureEndNotInStructure
  | .Array elements :: rest =>
    if elements > 0 then .error .StructureNotFinished else .ok rest
  | .Map _ elements :: rest =>
    if elements > 0 then .error .StructureNotFinished else .ok rest
  | .Tag finished :: rest =>
    if finished then .ok rest else .error .TagNotFinished
  | .Stream _ :: _ => .error .StructureNotFinished

/-- The loop body of `State::check_reduce`, with fuel; every iteration
pops one frame, so `ctx.length + 1` fuel always suffices (`fuel = 0`
collapses into the panic layer, and is proven unreachable for the fuel
supplied by `check_reduce`). -/
def check_reduceF : Nat → Ctx → PRes StateError Ctx
  | 0, _ => none
  | fuel + 1, ctx =>
    match ctx.head? with
    | some structure_ =>
      if structure_.reduceable then
        match reduce ctx with
        | .error e => perr e
        | .ok ctx1 =>
          match advance ctx1 with
          | none => none
          | some ctx2 => check_reduceF fuel ctx2
      else pok ctx
    | none => pok ctx

/-- `State::check_reduce`. -/
def check_reduce (ctx : Ctx) : PRes StateError Ctx :=
  check_reduceF (ctx.length + 1) ctx

/-- `State::push_stream`. -/
def push_stream (ty : StreamType) (ctx : Ctx) : PRes StateError Ctx :=
  match ctx.head? with
  | some (.Stream s) =>
    if s.composite_scalar then perr .StructureInChunks
    else pok (.Stream ty :: ctx)
  | _ => pok (.Stream ty :: ctx)

/-- `State::advance` followed by `State::check_reduce` (the shared tail of
`simple` and of definite `bytes`/`text`). -/
def advance_check (ctx : Ctx) : PRes StateError Ctx :=
  match advance ctx with
  | none => none
  | some ctx1 => check_reduce ctx1

/-- `State::item_streamable` (the common body of `bytes` and `text`). -/
def item_streamable (v : Option HeaderValue) (new_stream : StreamType)
    (ctx : Ctx) : PRes StateError Ctx :=
  match v with
  | none => push_stream new_stream ctx
  | some _ => advance_check ctx

/-- The push half of `State::struct_start` (its `match v` tail). -/
def struct_start_push (v : Option HeaderValue) (stream : StreamType)
    (f : Nat → StructTy) (ctx : Ctx) : PRes StateError Ctx :=
  match v with
  | none => push_stream stream ctx
  | some number_of_items => check_reduce (f number_of_items.to_u64 :: ctx)

/-- `State::struct_start` (the common body of `array` and `map`). -/
def struct_start (v : Option HeaderValue) (stream : StreamType)
    (f : Nat → StructTy) (ctx : Ctx) : PRes StateError Ctx :=
  match ctx.head? with
  | some (.Stream s) =>
    if s.composite_scalar then perr .StructureInChunks
    else struct_start_push v stream f ctx
  | _ => struct_start_push v stream f ctx

/-- `State::simple`. -/
def simple (ctx : Ctx) : PRes StateError Ctx := advance_check ctx

/-- `State::text`. -/
def text (v : Option HeaderValue) (ctx : Ctx) : PRes StateError Ctx :=
  item_streamable v .Text ctx

/-- `State::bytes`. -/
def bytes (v : Option HeaderValue) (ctx : Ctx) : PRes StateError Ctx :=
  item_streamable v .Bytes ctx

/-- `State::array`. -/
def array (v : Option HeaderValue) (ctx : Ctx) : PRes StateError Ctx :=
  struct_start v .Array (fun nz => .Array nz) ctx

/-- `State::map`. -/
def map (v : Option HeaderValue) (ctx : Ctx) : PRes StateError Ctx :=
  struct_start v (.Map false) (fun nz => .Map false nz) ctx

/-- `State::brk`. -/
def brk (ctx : Ctx) : PRes StateError Ctx :=
  match ctx with
  | .Stream _ :: rest => advance_check rest
  | _ :: _ => perr .BreakInNonStreamable
  | [] => perr .BreakEmptyStack

/-- `State::tag`. -/
def tag (ctx : Ctx) : PRes StateError Ctx :=
  match ctx.head? with
  | some (.Stream s) =>
    if s.composite_scalar then perr .TagInChunk
    else pok (.Tag false :: ctx)
  | _ => pok (.Tag false :: ctx)

end State

/-! ## The byte cursor (src/context.rs) -/

/-- `CborDataContext`. -/
inductive CborDataContext where
  | Header
  | IndirectLen
  | Content
deriving DecidableEq, Repr

/-- `CborDataMissing`: truncated-input error. -/
structure CborDataMissing where
  expecting_bytes : Nat
  got_bytes : Nat
  context : CborDataContext
deriving DecidableEq, Repr

/-- `CborDataReader`: a borrowed byte slice plus a cursor. -/
structure CborDataReader where
  data : List u8
  index : Nat
deriving DecidableEq, Repr

namespace CborDataReader

/-- `CborDataReader::new`. -/
def new (data : List u8) : CborDataReader := ⟨data, 0⟩

/-- `CborDataReader::remaining_bytes` (`data.len() - index`; the Rust
`usize` subtraction never underflows because the cursor never runs past
the end, and Lean's truncated subtraction agrees with it there). -/
def remaining_bytes (r : CborDataReader) : Nat := r.data.length - r.index

/-- `CborDataReader::peek` (src/context.rs lines 38-67).  Note the
second failure arm reports `got_bytes: rem`, the bytes remaining at the
*cursor*, not at `offset`. -/
def peek (r : CborDataReader) (context : CborDataContext) (offset n : Nat) :
    Except CborDataMissing (List u8) :=
  if n = 0 then .ok []
  else if r.remaining_bytes < offset then .error ⟨n, 0, context⟩
  else if n > r.remaining_bytes - offset then
    .error ⟨n, r.remaining_bytes, context⟩
  else .ok ((r.data.drop (r.index + offset)).take n)

/-- `CborDataReader::advance`. -/
def advance (r : CborDataReader) (n : Nat) : CborDataReader :=
  { r with index := r.index + n }

/-- `CborDataReader::consume`. -/
def consume (r : CborDataReader) (context : CborDataContext) (n : Nat) :
    Except CborDataMissing (List u8 × CborDataReader) :=
  (r.peek context 0 n).map (fun dat => (dat, r.advance n))

/-- `CborDataReader::slice_from`: `&data[start..index]`; Rust slicing
panics (`none`) when the range is out of bounds. -/
def slice_from (r : CborDataReader) (start : Nat) : Option (List u8) :=
  if start ≤ r.index ∧ r.index ≤ r.data.length then
    some ((r.data.take r.index).drop start)
  else none

end CborDataReader

/-! ## Shared header reading (`lead` / `resolve_indirect` / `header_parts`)

`Reader` (src/reader.rs lines 162-210) and `Validator` (src/validate.rs
lines 75-115) contain the same three header-reading helpers, differing
only in the error enum they wrap `LeadError` and `CborDataMissing` into;
they are embedded once over `CborDataReader` with a small common error
type that each driver injects into its own enum. -/

/-- The errors of the shared header-reading helpers. -/
inductive HdrErr where
  | lead (e : LeadError)
  | miss (e : CborDataMissing)
deriving DecidableEq, Repr

/-- Rust `u{16,32,64}::from_be_bytes`. -/
def beNat (l : List u8) : Nat := l.foldl (fun acc b => acc * 256 + b.val) 0

namespace CborDataReader

/-- The `lead` helper: peek one byte, classify it.  Indexing `hdr[0]` on
an empty peek result would panic; the peek contract makes that arm dead. -/
def lead (r : CborDataReader) : PRes HdrErr Lead :=
  match r.peek .Header 0 1 with
  | .error e => perr (.miss e)
  | .ok (b :: _) =>
    match Lead.from_byte b with
    | .error e => perr (.lead e)
    | .ok ld => pok ld
  | .ok [] => none

/-- The `resolve_indirect` helper: peek the 1/2/4/8 trailing big-endian
bytes at offset 1.  `copy_from_slice` panics on a length mismatch; the
peek contract makes those arms dead. -/
def resolve_indirect (r : CborDataReader) (indirect_len : IndirectLen) :
    PRes HdrErr IndirectValue :=
  match indirect_len with
  | .I1 =>
    match r.peek .IndirectLen 1 1 with
    | .error e => perr (.miss e)
    | .ok [a] => pok (.U8 a.val)
    | .ok _ => none
  | .I2 =>
    match r.peek .IndirectLen 1 2 with
    | .error e => perr (.miss e)
    | .ok (l@(_ :: _ :: [])) => pok (.U16 (beNat l))
    | .ok _ => none
  | .I4 =>
    match r.peek .IndirectLen 1 4 with
    | .error e => perr (.miss e)
    | .ok (l@(_ :: _ :: _ :: _ :: [])) => pok (.U32 (beNat l))
    | .ok _ => none
  | .I8 =>
    match r.peek .IndirectLen 1 8 with
    | .error e => perr (.miss e)
    | .ok (l@(_ :: _ :: _ :: _ :: _ :: _ :: _ :: _ :: [])) =>
      pok (.U64 (beNat l))
    | .ok _ => none

/-- The `header_parts` helper: the classified lead byte, the number of
header bytes, and the resolved indirect value if one is required. -/
def header_parts (r : CborDataReader) :
    PRes HdrErr (Lead × Nat × Option IndirectValue) :=
  pbind r.lead fun ld =>
    match ld.expected_extra with
    | none => pok (ld, 1, none)
    | some v =>
      pbind (r.resolve_indirect v) fun ival =>
        pok (ld, 1 + v.len_bytes, some ival)

end CborDataReader

/-! ## The standalone validator (src/validate.rs) -/

/-- `ValidateError`. -/
inductive ValidateError where
  | LeadError (e : LeadError)
  | DataMissing (e : CborDataMissing)
  | StateError (e : StateError)
deriving DecidableEq, Repr

/-- Injection of the shared header-reading errors into `ValidateError`
(the `From` impls of src/validate.rs). -/
def HdrErr.toValidateError : HdrErr → ValidateError
  | .lead e => .LeadError e
  | .miss e => .DataMissing e

/-- `Validator`: data stream plus CBOR state machine. -/
structure Validator where
  reader : CborDataReader
  state : Ctx
deriving DecidableEq, Repr

namespace Validator

/-- `Validator::new`; `assert!(data.len() > 0)` panics (`none`) on an
empty buffer. -/
def new (data : List u8) : Option Validator :=
  if 0 < data.length then some ⟨CborDataReader.new data, State.new⟩ else none

/-- Map a state-machine result onto the validator. -/
def liftState (v : Validator) (r : PRes StateError Ctx) :
    PRes ValidateError Validator :=
  match r with
  | none => none
  | some (.error e) => perr (.StateError e)
  | some (.ok ctx) => pok { v with state := ctx }

/-- `Validator::consume_data_streamable`: consume the payload of a
definite `Bytes`/`Text` header. -/
def consume_data_streamable (v : Validator) (hv : Option HeaderValue) :
    PRes ValidateError Validator :=
  match hv with
  | none => pok v
  | some b =>
    match v.reader.consume .Content b.to_u64 with
    | .error e => perr (.DataMissing e)
    | .ok (_, rd) => pok { v with reader := rd }

/-- `Validator::process_header` (src/validate.rs lines 130-151). -/
def process_header (v : Validator) (header : Header) :
    PRes ValidateError Validator :=
  match header with
  | .Positive _ => v.liftState (State.simple v.state)
  | .Negative _ => v.liftState (State.simple v.state)
  | .Bytes c =>
    pbind (v.consume_data_streamable c) fun v1 =>
      v1.liftState (State.bytes c v1.state)
  | .Text c =>
    pbind (v.consume_data_streamable c) fun v1 =>
      v1.liftState (State.text c v1.state)
  | .Array c => v.liftState (State.array c v.state)
  | .Map c => v.liftState (State.map c v.state)
  | .Tag _ => v.liftState (State.tag v.state)
  | .Constant _ => v.liftState (State.simple v.state)
  | .Byte _ => v.liftState (State.simple v.state)
  | .Float _ => v.liftState (State.simple v.state)
  | .Break => v.liftState (State.brk v.state)

end Validator

/-- The outcome of one `Validator::next` call.  `panicked` models a Rust
panic, `fuelOut` marks exhausted fuel (proven unreachable for the fuel
`next` supplies), `err` a returned `Err`, and `ok` carries the validated
span, its byte length and the updated validator. -/
inductive LoopRes where
  | panicked
  | fuelOut
  | err (e : ValidateError)
  | ok (span : List u8) (len : Nat) (v : Validator)
deriving DecidableEq, Repr

namespace Validator

/-- The loop body of `Validator::next` (src/validate.rs lines 162-176),
with fuel.  Each iteration advances the cursor by at least one byte. -/
def nextLoop : Nat → Nat → Validator → LoopRes
  | 0, _, _ => .fuelOut
  | fuel + 1, start, v =>
    match v.reader.header_parts with
    | none => .panicked
    | some (.error e) => .err e.toValidateError
    | some (.ok (ld, advance, ival)) =>
      match Header.from_parts ld ival with
      | none => .panicked
      | some header =>
        let v1 : Validator := { v with reader := v.reader.advance advance }
        match v1.process_header header with
        | none => .panicked
        | some (.error e) => .err e
        | some (.ok v2) =>
          if State.acceptable v2.state then
            match v2.reader.slice_from start with
            | none => .panicked
            | some valid => .ok valid (v2.reader.index - start) v2
          else nextLoop fuel start v2

/-- `Validator::next`: loop from the current cursor with enough fuel for
the whole remaining buffer. -/
def next (v : Validator) : LoopRes :=
  nextLoop (v.reader.data.length + 1 - v.reader.index) v.reader.index v

end Validator

/-! ## The typed reader (src/reader.rs) -/

/-- `ReaderError`.  Payloads that only feed diagnostics text (the inner
`Utf8Error`, the `&'static [Type]` lists) are kept as the data needed by
the theorems. -/
inductive ReaderError where
  | LeadError (e : LeadError)
  | DataMissing (e : CborDataMissing)
  | StateError (e : StateError)
  | WrongExpectedType (expected : Ty) (got : Ty)
  | WrongExpectedTypes (expected : List Ty) (got : Ty)
  | WrongExpectedTag (expected : Nat) (got : Nat)
  | WrongExpectedTags (expected : List Nat) (got : Nat)
  | WrongExpectedLength (expected : Nat) (got : Nat)
  | UnexpectedBreakType
  | TextUTF8Error
  | TextChunksInTextChunks
  | BytesChunksInBytesChunks
  | WrongExpectedTypeInText (got : Ty)
  | WrongExpectedTypeInBytes (got : Ty)
  | NotTerminated (at_ : Nat) (remaining_bytes : Nat) (next_byte : Nat)
deriving DecidableEq, Repr

/-- Injection of the shared header-reading errors into `ReaderError`
(the `From` impls of src/reader.rs). -/
def HdrErr.toReaderError : HdrErr → ReaderError
  | .lead e => .LeadError e
  | .miss e => .DataMissing e

/-- `Reader`: the typed CBOR reader is a cursor over a borrowed slice. -/
structure Reader where
  reader : CborDataReader
deriving DecidableEq, Repr

/-- `Array<'a>` (src/types/structure.rs): recorded length encoding plus
the un-interpreted element spans. -/
structure ArrayVal where
  len_encoding : StructureLength
  elements : List (List u8)
deriving DecidableEq, Repr

namespace Reader

/-- `Reader::new`; `assert!(data.len() > 0)` panics (`none`) on an empty
buffer. -/
def new (data : List u8) : Option Reader :=
  if 0 < data.length then some ⟨CborDataReader.new data⟩ else none

/-- `Reader::header`: decode the next header without moving the cursor. -/
def header (r : Reader) : PRes ReaderError (Header × Nat) :=
  match r.reader.header_parts with
  | none => none
  | some (.error e) => perr e.toReaderError
  | some (.ok (ld, advance, ival)) =>
    match Header.from_parts ld ival with
    | none => none
    | some hdr => pok (hdr, advance)

/-- `Reader::peek_type`. -/
def peek_type (r : Reader) : PRes ReaderError Ty :=
  match r.reader.lead with
  | none => none
  | some (.error e) => perr e.toReaderError
  | some (.ok ld) => pok (Ty.from_lead ld)

/-- `Reader::positive`.  The reader is returned alongside the result:
every error path leaves it exactly as it was (the cursor is advanced only
after the header matched). -/
def positive (r : Reader) : PRes ReaderError Positive × Reader :=
  match r.header with
  | none => (none, r)
  | some (.error e) => (perr e, r)
  | some (.ok (hdr, advance)) =>
    match hdr with
    | .Positive content => (pok content, ⟨r.reader.advance advance⟩)
    | _ => (perr (.WrongExpectedType .Positive hdr.to_type), r)

/-- `Reader::negative`. -/
def negative (r : Reader) : PRes ReaderError Negative × Reader :=
  match r.header with
  | none => (none, r)
  | some (.error e) => (perr e, r)
  | some (.ok (hdr, advance)) =>
    match hdr with
    | .Negative content => (pok content, ⟨r.reader.advance advance⟩)
    | _ => (perr (.WrongExpectedType .Negative hdr.to_type), r)

/-- `state_process_header` (src/reader.rs lines 95-110). -/
def state_process_header (state : Ctx) (header : Header) :
    PRes StateError Ctx :=
  match header with
  | .Positive _ => State.simple state
  | .Negative _ => State.simple state
  | .Bytes c => State.bytes c state
  | .Text c => State.text c state
  | .Array c => State.array c state
  | .Map c => State.map c state
  | .Tag _ => State.tag state
  | .Constant _ => State.simple state
  | .Byte _ => State.simple state
  | .Float _ => State.simple state
  | .Break => State.brk state

/-- `Reader::advance_data`: consume the payload of a definite
`Bytes`/`Text` header. -/
def advance_data (rd : CborDataReader) (header : Header) :
    PRes ReaderError CborDataReader :=
  match header with
  | .Bytes (some b) | .Text (some b) =>
    match rd.consume .Content b.to_u64 with
    | .error e => perr (.DataMissing e)
    | .ok (_, rd1) => pok rd1
  | _ => pok rd

end Reader

/-- The outcome of the `Reader::cbor_slice_neutral` loop. -/
inductive NeutralRes where
  | panicked
  | fuelOut
  | err (e : ReaderError)
  | ok (slice : List u8) (rd : CborDataReader)
deriving DecidableEq, Repr

namespace Reader

/-- The loop body of `Reader::cbor_slice_neutral` (src/reader.rs lines
406-422), with fuel. -/
def neutralLoop : Nat → Nat → CborDataReader → Ctx → NeutralRes
  | 0, _, _, _ => .fuelOut
  | fuel + 1, start, rd, state =>
    match rd.header_parts with
    | none => .panicked
    | some (.error e) => .err e.toReaderError
    | some (.ok (ld, advance, ival)) =>
      match Header.from_parts ld ival with
      | none => .panicked
      | some header =>
        let rd1 := rd.advance advance
        match advance_data rd1 header with
        | none => .panicked
        | some (.error e) => .err e
        | some (.ok rd2) =>
          match state_process_header state header with
          | none => .panicked
          | some (.error e) => .err (.StateError e)
          | some (.ok state1) =>
            if State.acceptable state1 then
              match rd2.slice_from start with
              | none => .panicked
              | some s => .ok s rd2
            else neutralLoop fuel start rd2 state1

/-- `Reader::cbor_slice_neutral`: capture the span of the next complete
item, driving a fresh state machine until it accepts. -/
def cbor_slice_neutral (rd : CborDataReader) : NeutralRes :=
  neutralLoop (rd.data.length + 1 - rd.index) rd.index rd State.new

/-- The definite-length element loop of `Reader::array` (`for _ in 0..sz`,
collecting one neutral span per element).  `fuelOut` of the inner loop is
collapsed into the panic layer; it is unreachable for the fuel
`cbor_slice_neutral` supplies. -/
def arrayElemsDef : Nat → CborDataReader →
    PRes ReaderError (List (List u8) × CborDataReader)
  | 0, rd => pok ([], rd)
  | sz + 1, rd =>
    match cbor_slice_neutral rd with
    | .panicked => none
    | .fuelOut => none
    | .err e => perr e
    | .ok s rd1 =>
      pbind (arrayElemsDef sz rd1) fun out => pok (s :: out.1, out.2)

/-- The indefinite-length element loop of `Reader::array` (`while
peek_type != Break`), with fuel; the final `advance(1)` skips the break. -/
def arrayElemsIndef : Nat → CborDataReader →
    PRes ReaderError (List (List u8) × CborDataReader)
  | 0, _ => none
  | fuel + 1, rd =>
    pbind (peek_type ⟨rd⟩) fun ty =>
      if ty = .Break then pok ([], rd.advance 1)
      else
        match cbor_slice_neutral rd with
        | .panicked => none
        | .fuelOut => none
        | .err e => perr e
        | .ok s rd1 =>
          pbind (arrayElemsIndef fuel rd1) fun out => pok (s :: out.1, out.2)

/-- `Reader::array` (src/reader.rs lines 424-461). -/
def array (r : Reader) : PRes ReaderError (ArrayVal × Reader) :=
  match r.header with
  | none => none
  | some (.error e) => perr e
  | some (.ok (hdr, advance)) =>
    match hdr with
    | .Array content =>
      let rd := r.reader.advance advance
      match content with
      | none =>
        pbind (arrayElemsIndef (rd.data.length + 1 - rd.index) rd) fun out =>
          pok (⟨StructureLength.ofOption content, out.1⟩, ⟨out.2⟩)
      | some len =>
        pbind (arrayElemsDef len.to_u64 rd) fun out =>
          pok (⟨StructureLength.ofOption content, out.1⟩, ⟨out.2⟩)
    | _ => perr (.WrongExpectedType .Array hdr.to_type)

end Reader

/-! ## The canonical writer (src/writer.rs)

The `Writer` is an append-only byte vector, modelled as the `List u8` it
holds so far; each primitive returns the grown buffer.  The only panics
are the `assert!` in `Content::to_byte` (an `Imm` value above `0x17`) and
in `Writer::byte` (an immediate byte above `0x13`), kept in the `Option`
layer. -/

/-- `HeaderValue::to_lead_content` (also `Value::to_lead_content`). -/
def HeaderValue.to_lead_content : HeaderValue → Content
  | .Imm v => .Imm v
  | .U8 _ => .Indirect .I1
  | .U16 _ => .Indirect .I2
  | .U32 _ => .Indirect .I4
  | .U64 _ => .Indirect .I8

/-- `u16::to_be_bytes`. -/
def u16_be (v : Nat) : List u8 := [byteOf (v >>> 8), byteOf v]

/-- `u32::to_be_bytes`. -/
def u32_be (v : Nat) : List u8 :=
  [byteOf (v >>> 24), byteOf (v >>> 16), byteOf (v >>> 8), byteOf v]

/-- `u64::to_be_bytes`. -/
def u64_be (v : Nat) : List u8 :=
  [byteOf (v >>> 56), byteOf (v >>> 48), byteOf (v >>> 40), byteOf (v >>> 32),
   byteOf (v >>> 24), byteOf (v >>> 16), byteOf (v >>> 8), byteOf v]

namespace Writer

/-- `Writer::new`: the empty buffer. -/
def new : List u8 := []

/-- `Writer::write_break`. -/
def write_break (w : List u8) : List u8 := w ++ [byteOf 0xff]

/-- The trailing big-endian bytes a `HeaderValue` appends after its lead
byte (the `match v` tail shared by `write_value` and
`write_value_stream`). -/
def value_tail : HeaderValue → List u8
  | .Imm _ => []
  | .U8 v => [byteOf v]
  | .U16 v => u16_be v
  | .U32 v => u32_be v
  | .U64 v => u64_be v

/-- `Writer::write_value`. -/
def write_value (w : List u8) (m : Major) (v : HeaderValue) :
    Option (List u8) :=
  (v.to_lead_content.to_byte).map fun cb =>
    w ++ [byteOf (m.to_high_bits ||| cb)] ++ value_tail v

/-- `Writer::write_value_stream`. -/
def write_value_stream (w : List u8) (m : Major) (v : Option HeaderValue) :
    Option (List u8) :=
  ((ContentStream.ofOptionContent (v.map HeaderValue.to_lead_content)).to_byte).map
    fun cb =>
      w ++ [byteOf (m.to_high_bits ||| cb)] ++
        (match v with
         | none => []
         | some hv => value_tail hv)

/-- `Writer::write_structure_length`. -/
def write_structure_length (w : List u8) (m : Major) (v : StructureLength) :
    Option (List u8) :=
  match v with
  | .Indefinite => write_value_stream w m none
  | .Definite hv => write_value_stream w m (some hv)

/-- `Writer::positive`. -/
def positive (w : List u8) (d : Positive) : Option (List u8) :=
  write_value w .Positive d.val

/-- `Writer::negative`. -/
def negative (w : List u8) (d : Negative) : Option (List u8) :=
  write_value w .Negative d.val

/-- `Writer::array` over already-encoded element spans. -/
def array (w : List u8) (d : ArrayVal) : Option (List u8) :=
  (write_structure_length w .Array d.len_encoding).map fun w1 =>
    let w2 := w1 ++ d.elements.foldr (· ++ ·) []
    if d.len_encoding.is_indefinite then write_break w2 else w2

end Writer

/-- `impl Encode for u64` (src/encode.rs lines 123-127) composed with
`encode_to_bytes` (src/lib.rs): write the canonical positive header of the
value into a fresh writer and finalize it. -/
def encode_to_bytes_u64 (v : Nat) : Option (List u8) :=
  Writer.positive Writer.new ⟨HeaderValue.canonical v⟩

/-! ## The public operation alphabet of the state machine

Used to quantify over every sequence of public `State` operations. -/

/-- One public operation of `State`. -/
inductive SOp where
  | simple
  | bytes (v : Option HeaderValue)
  | text (v : Option HeaderValue)
  | array (v : Option HeaderValue)
  | map (v : Option HeaderValue)
  | tag
  | brk
deriving DecidableEq, Repr

/-- Dispatch one public operation. -/
def SOp.apply : SOp → Ctx → PRes StateError Ctx
  | .simple, ctx => State.simple ctx
  | .bytes v, ctx => State.bytes v ctx
  | .text v, ctx => State.text v ctx
  | .array v, ctx => State.array v ctx
  | .map v, ctx => State.map v ctx
  | .tag, ctx => State.tag ctx
  | .brk, ctx => State.brk ctx

/-- Run a sequence of public operations, stopping at the first error (or
panic). -/
def SOp.run : List SOp → Ctx → PRes StateError Ctx
  | [], ctx => pok ctx
  | op :: ops, ctx => pbind (op.apply ctx) (SOp.run ops)

/-- The invariant of states at rest: no frame anywhere in the stack is
reduceable (in particular the top frame is not). -/
def StateInv (ctx : Ctx) : Prop := ∀ fr ∈ ctx, fr.reduceable = false

/-- Outcome contract of a state operation started from an invariant
state: no panic, and any `Ok` state satisfies the invariant again. -/
def POk (p : PRes StateError Ctx) : Prop :=
  p ≠ none ∧ ∀ ctx1, p = pok ctx1 → StateInv ctx1

/-! ### State-machine invariant lemmas -/

theorem StateInv.nil : StateInv [] := by
  intro fr h; cases h

theorem StateInv.tail {ctx : Ctx} (h : StateInv ctx) : StateInv ctx.tail :=
  fun fr hm => h fr (List.mem_of_mem_tail hm)

theorem StateInv.cons {fr : StructTy} {ctx : Ctx}
    (h1 : fr.reduceable = false) (h2 : StateInv ctx) :
    StateInv (fr :: ctx) := by
  intro g hg
  rcases List.mem_cons.mp hg with rfl | hg
  · exact h1
  · exact h2 g hg

/-- `State::advance` succeeds on an invariant stack and changes only the
top frame. -/
theorem advance_of_inv {ctx : Ctx} (h : StateInv ctx) :
    ∃ ctx1, State.advance ctx = some ctx1 ∧ ctx1.tail = ctx.tail ∧
      ctx1.length = ctx.length := by
  match ctx with
  | [] => exact ⟨[], rfl, rfl, rfl⟩
  | fr :: rest =>
    have hfr : fr.reduceable = false := h fr (List.mem_cons_self fr rest)
    cases fr with
    | Array z =>
      have hz : z ≠ 0 := by
        intro hz0; subst hz0; simp [StructTy.reduceable] at hfr
      refine ⟨.Array (z - 1) :: rest, ?_, rfl, rfl⟩
      simp [State.advance, hz]
    | Map exp_val elements =>
      have he : elements ≠ 0 := by
        intro hz0; subst hz0; simp [StructTy.reduceable] at hfr
      cases exp_val with
      | true =>
        refine ⟨.Map false elements :: rest, ?_, rfl, rfl⟩
        simp [State.advance]
      | false =>
        refine ⟨.Map false (elements - 1) :: rest, ?_, rfl, rfl⟩
        simp [State.advance, he]
    | Tag finished =>
      have hf : finished = false := by
        cases finished with
        | true => simp [StructTy.reduceable] at hfr
        | false => rfl
      subst hf
      refine ⟨.Tag true :: rest, ?_, rfl, rfl⟩
      simp [State.advance]
    | Stream sty =>
      refine ⟨.Stream sty :: rest, ?_, rfl, rfl⟩
      simp [State.advance]

/-- `State::check_reduce` with enough fuel, started from a stack whose
tail is invariant, pops every reduceable frame (never panicking, never
failing) and returns an invariant stack. -/
theorem check_reduceF_spec :
    ∀ (fuel : Nat) (ctx : Ctx), StateInv ctx.tail → ctx.length < fuel →
      ∃ ctx1, State.check_reduceF fuel ctx = pok ctx1 ∧ StateInv ctx1 := by
  intro fuel
  induction fuel with
  | zero => intro ctx _ h; omega
  | succ f ih =>
    intro ctx htail hlen
    match ctx with
    | [] => exact ⟨[], rfl, StateInv.nil⟩
    | top :: rest =>
      have htail' : StateInv rest := htail
      by_cases hred : top.reduceable = true
      · have hreduce : State.reduce (top :: rest) = .ok rest := by
          cases top with
          | Array z =>
            have : z = 0 := by simpa [StructTy.reduceable] using hred
            subst this; simp [State.reduce]
          | Map e z =>
            have : z = 0 := by simpa [StructTy.reduceable] using hred
            subst this; simp [State.reduce]
          | Tag t =>
            have : t = true := by simpa [StructTy.reduceable] using hred
            subst this; simp [State.reduce]
          | Stream s => simp [StructTy.reduceable] at hred
        obtain ⟨rest1, hadv, htl, hln⟩ := advance_of_inv htail'
        have htail1 : StateInv rest1.tail := by
          rw [htl]; exact htail'.tail
        have hlen1 : rest1.length < f := by
          simp [List.length_cons] at hlen; omega
        obtain ⟨ctx1, hcr, hinv⟩ := ih rest1 htail1 hlen1
        refine ⟨ctx1, ?_, hinv⟩
        simp only [State.check_reduceF, List.head?, hred, if_true, hreduce,
          hadv]
        exact hcr
      · have hred' : top.reduceable = false := by
          cases h : top.reduceable with
          | true => exact absurd h hred
          | false => rfl
        refine ⟨top :: rest, ?_, StateInv.cons hred' htail'⟩
        simp only [State.check_reduceF, List.head?, hred', if_false]
        rfl

/-- `State::check_reduce` under a tail-invariant stack. -/
theorem check_reduce_spec {ctx : Ctx} (h : StateInv ctx.tail) :
    ∃ ctx1, State.check_reduce ctx = pok ctx1 ∧ StateInv ctx1 :=
  check_reduceF_spec (ctx.length + 1) ctx h (Nat.lt_succ_self _)

/-- `advance` then `check_reduce` from an invariant state. -/
theorem advance_check_spec {ctx : Ctx} (h : StateInv ctx) :
    ∃ ctx1, State.advance_check ctx = pok ctx1 ∧ StateInv ctx1 := by
  obtain ⟨c1, hadv, htl, _⟩ := advance_of_inv h
  have : StateInv c1.tail := by rw [htl]; exact h.tail
  obtain ⟨c2, hcr, hinv⟩ := check_reduce_spec this
  exact ⟨c2, by simp [State.advance_check, hadv, hcr], hinv⟩

/-- `push_stream` either rejects a structure inside a chunk stream or
pushes the new stream frame. -/
theorem push_stream_eq (ty : StreamType) (ctx : Ctx) :
    State.push_stream ty ctx = perr .StructureInChunks ∨
    State.push_stream ty ctx = pok (.Stream ty :: ctx) := by
  unfold State.push_stream
  match ctx with
  | [] => right; rfl
  | .Stream s :: rest =>
    by_cases hs : s.composite_scalar = true
    · left; simp [hs]
    · right; simp [hs]
  | .Array _ :: rest => right; rfl
  | .Map _ _ :: rest => right; rfl
  | .Tag _ :: rest => right; rfl

/-- `push_stream` from an invariant state: a typed error or an invariant
push; never a panic. -/
theorem push_stream_spec {ctx : Ctx} (ty : StreamType) (h : StateInv ctx) :
    POk (State.push_stream ty ctx) := by
  rcases push_stream_eq ty ctx with heq | heq <;> rw [heq] <;> constructor
  · simp [perr]
  · intro ctx1 h1; simp [perr, pok] at h1
  · simp [pok]
  · intro ctx1 h1
    simp only [pok, Option.some.injEq, Except.ok.injEq] at h1
    subst h1
    exact StateInv.cons (by simp [StructTy.reduceable]) h

theorem POk_perr {e : StateError} : POk (perr e) := by
  constructor
  · simp [perr]
  · intro ctx1 h1; simp [perr, pok] at h1

theorem POk_pok {c : Ctx} (h : StateInv c) : POk (pok c) := by
  constructor
  · simp [pok]
  · intro ctx1 h1
    simp only [pok, Option.some.injEq, Except.ok.injEq] at h1
    subst h1; exact h

theorem advance_check_POk {ctx : Ctx} (h : StateInv ctx) :
    POk (State.advance_check ctx) := by
  obtain ⟨c1, heq, hinv⟩ := advance_check_spec h
  rw [heq]; exact POk_pok hinv

theorem item_streamable_spec {ctx : Ctx} (v : Option HeaderValue)
    (st : StreamType) (h : StateInv ctx) :
    POk (State.item_streamable v st ctx) := by
  cases v with
  | none => exact push_stream_spec st h
  | some b => exact advance_check_POk h

theorem struct_start_spec {ctx : Ctx} (v : Option HeaderValue)
    (stream : StreamType) (f : Nat → StructTy) (h : StateInv ctx) :
    POk (State.struct_start v stream f ctx) := by
  have hpush : POk (State.struct_start_push v stream f ctx) := by
    cases v with
    | none => exact push_stream_spec stream h
    | some n =>
      have hstep : State.struct_start_push (some n) stream f ctx =
          State.check_reduce (f n.to_u64 :: ctx) := rfl
      have htail : StateInv (f n.to_u64 :: ctx).tail := h
      obtain ⟨c1, heq, hinv⟩ := check_reduce_spec htail
      rw [hstep, heq]; exact POk_pok hinv
  unfold State.struct_start
  match ctx with
  | [] => exact hpush
  | .Stream s :: rest =>
    by_cases hs : s.composite_scalar = true
    · simp only [hs, List.head?, if_true]; exact POk_perr
    · simp only [hs, List.head?, if_false]; exact hpush
  | .Array _ :: rest => exact hpush
  | .Map _ _ :: rest => exact hpush
  | .Tag _ :: rest => exact hpush

theorem tag_spec {ctx : Ctx} (h : StateInv ctx) : POk (State.tag ctx) := by
  have hp : POk (pok (StructTy.Tag false :: ctx) : PRes StateError Ctx) :=
    POk_pok (StateInv.cons (by simp [StructTy.reduceable]) h)
  unfold State.tag
  match ctx with
  | [] => exact hp
  | .Stream s :: rest =>
    by_cases hs : s.composite_scalar = true
    · simp only [hs, List.head?, if_true]; exact POk_perr
    · simp only [hs, List.head?, if_false]; exact hp
  | .Array _ :: rest => exact hp
  | .Map _ _ :: rest => exact hp
  | .Tag _ :: rest => exact hp

theorem brk_spec {ctx : Ctx} (h : StateInv ctx) : POk (State.brk ctx) := by
  unfold State.brk
  match ctx with
  | [] => exact POk_perr
  | .Stream s :: rest => exact advance_check_POk h.tail
  | .Array _ :: rest => exact POk_perr
  | .Map _ _ :: rest => exact POk_perr
  | .Tag _ :: rest => exact POk_perr

/-- Every public operation, from an invariant state, either fails with a
typed `StateError` or succeeds into an invariant state; it never panics
(the `assert_ne!` assertions inside `advance` are unreachable). -/
theorem SOp.apply_spec (op : SOp) (ctx : Ctx) (h : StateInv ctx) :
    POk (op.apply ctx) := by
  cases op with
  | simple => exact advance_check_POk h
  | bytes v => exact item_streamable_spec v .Bytes h
  | text v => exact item_streamable_spec v .Text h
  | array v => exact struct_start_spec v .Array _ h
  | map v => exact struct_start_spec v (.Map false) _ h
  | tag => exact tag_spec h
  | brk => exact brk_spec h

/-- Iterated public operations from an invariant state never panic, and
every `Ok` outcome is again invariant. -/
theorem SOp.run_spec :
    ∀ (ops : List SOp) (ctx : Ctx), StateInv ctx → POk (SOp.run ops ctx) := by
  intro ops
  induction ops with
  | nil => intro ctx h; exact POk_pok h
  | cons op ops ih =>
    intro ctx h
    have hop := SOp.apply_spec op ctx h
    constructor
    · intro hnone
      simp only [SOp.run] at hnone
      match happ : op.apply ctx with
      | none => exact hop.1 happ
      | some (.error e) => rw [happ] at hnone; simp [pbind] at hnone
      | some (.ok c1) =>
        rw [happ] at hnone
        simp only [pbind] at hnone
        exact (ih c1 (hop.2 c1 happ)).1 hnone
    · intro ctx1 h1
      simp only [SOp.run] at h1
      match happ : op.apply ctx with
      | none => rw [happ] at h1; simp [pbind, pok] at h1
      | some (.error e) => rw [happ] at h1; simp [pbind, pok, perr] at h1
      | some (.ok c1) =>
        rw [happ] at h1
        simp only [pbind] at h1
        exact (ih c1 (hop.2 c1 happ)).2 ctx1 h1

/-- C10: starting from `State::new()`, after any sequence of public
state-machine operations that all returned `Ok`, no frame of the stack —
in particular not the top frame — is reduceable (no `Array(0)`, no
`Map` with 0 remaining elements, no filled `Tag`), because `check_reduce`
pops every reduceable frame before returning; consequently the
`assert_ne!` assertions inside `State::advance` are unreachable through
the public operations (the run never hits the panic layer). -/
theorem reachable_states_never_reduceable_top :
    ∀ ops : List SOp,
      SOp.run ops State.new ≠ none ∧
      ∀ ctx, SOp.run ops State.new = pok ctx →
        (∀ fr ∈ ctx, fr.reduceable = false) ∧
        (∀ fr, ctx.head? = some fr → fr.reduceable = false) := by
  intro ops
  have hrun := SOp.run_spec ops State.new StateInv.nil
  refine ⟨hrun.1, fun ctx hctx => ?_⟩
  have hinv := hrun.2 ctx hctx
  exact ⟨hinv, fun fr hfr => hinv fr (List.mem_of_mem_head? hfr)⟩

/-- Witness for C10 at the concrete operation sequence
`array(definite 1); simple` (the byte stream `[0x81, 0x00]`): the run
succeeds, ends on the empty (hence reduceable-free) stack. -/
theorem reachable_states_never_reduceable_top_witness :
    SOp.run [SOp.array (some (.Imm 1)), SOp.simple] State.new ≠ none ∧
    ∀ fr ∈ ([] : Ctx), fr.reduceable = false :=
  ⟨(reachable_states_never_reduceable_top
      [SOp.array (some (.Imm 1)), SOp.simple]).1,
   ((reachable_states_never_reduceable_top
      [SOp.array (some (.Imm 1)), SOp.simple]).2 [] (by decide)).1⟩

/-- C7 (code bug): with a `Stream(Bytes)` frame on top of the stack, the
state machine *accepts* a scalar (`simple`, e.g. the integer inside
`[0x5f, 0x01]`), *accepts* a definite Text chunk (the non-matching chunk
kind), and rejects an indefinite Bytes chunk with `StructureInChunks`
rather than the documented `ChunksInChunks`; the `ChunksInChunks` and
`InvalidTypeInChunk` variants are never produced by any operation. -/
theorem stream_frame_accepts_non_chunk_items :
    State.simple [.Stream .Bytes] = pok [.Stream .Bytes] ∧
    State.text (some (.U8 1)) [.Stream .Bytes] = pok [.Stream .Bytes] ∧
    State.bytes none [.Stream .Bytes] = perr .StructureInChunks ∧
    State.tag [.Stream .Bytes] = perr .TagInChunk ∧
    State.array (some (.Imm 0)) [.Stream .Bytes] = perr .StructureInChunks := by
  decide

/-- C8: a bare Break (`[0xff]`) fails with `BreakEmptyStack`; on
`[0x9f, 0xff, 0xff]` (indefinite array immediately closed, then a stray
extra break) the first `next()` validates the two-byte item and the
second `next()` fails with `BreakEmptyStack` on the stray break. -/
theorem bare_break_and_stray_break_rejected :
    (Validator.new [0xff]).map Validator.next =
      some (.err (.StateError .BreakEmptyStack)) ∧
    (Validator.new [0x9f, 0xff, 0xff]).map Validator.next =
      some (.ok [0x9f, 0xff] 2 ⟨⟨[0x9f, 0xff, 0xff], 2⟩, []⟩) ∧
    Validator.next ⟨⟨[0x9f, 0xff, 0xff], 2⟩, []⟩ =
      .err (.StateError .BreakEmptyStack) := by
  decide

/-- C3 (code bug): validating the truncated buffer `[0x19, 0x01]` (a
`U16` positive integer missing one trailing byte) fails with
`CborDataMissing` whose `got_bytes` is `2` — the total bytes remaining at
the cursor — not `1`, the bytes actually available at offset 1 where the
read was attempted (which is what the claim, and the crate's own
`data_missing` test in src/validate.rs, expect).  The preceding two
conjuncts show the same buffer family from the crate's test where the
offset is 0 and the reported count happens to agree. -/
theorem truncated_indirect_got_bytes_mismatch :
    (Validator.new [0x43]).map Validator.next =
      some (.err (.DataMissing ⟨3, 0, .Content⟩)) ∧
    (Validator.new [0x43, 0x01]).map Validator.next =
      some (.err (.DataMissing ⟨3, 1, .Content⟩)) ∧
    (Validator.new [0x19, 0x01]).map Validator.next =
      some (.err (.DataMissing ⟨2, 2, .IndirectLen⟩)) := by
  decide

/-- C1 (code bug): the round-trip does not preserve the immediate length
tier.  The empty definite array recorded with the immediate tier encodes
to `[0x80]`, but decoding `[0x80]` yields a definite length in the `U8`
tier (because `resolve_value_stream` in src/header.rs maps an immediate
content field to `Value::U8`), so `decode(encode(x)) ≠ x`. -/
theorem array_imm_length_tier_changes_on_decode :
    Writer.array Writer.new ⟨.Definite (.Imm 0), []⟩ = some [0x80] ∧
    (Reader.new [0x80]).map Reader.array =
      some (pok (⟨.Definite (.U8 0), []⟩, ⟨⟨[0x80], 1⟩⟩)) ∧
    (⟨.Definite (.U8 0), []⟩ : ArrayVal) ≠ ⟨.Definite (.Imm 0), []⟩ := by
  decide

/-- C4: for every well-formed decoded header value, `is_canonical`
returns `false` exactly when the encoded tier is wider than the narrowest
tier holding the actual value; and decoding the non-canonical encoding
`[0x18, 0x05]` (the value 5 in the `U8` tier) still succeeds while being
flagged non-canonical. -/
theorem is_canonical_detects_wider_tier :
    (∀ hv : HeaderValue, HeaderValue.WF hv →
      (hv.is_canonical = false ↔
        (HeaderValue.canonical hv.to_u64).width < hv.width)) ∧
    (Reader.new [0x18, 0x05]).map Reader.positive =
      some (pok ⟨.U8 5⟩, ⟨⟨[0x18, 0x05], 2⟩⟩) ∧
    HeaderValue.is_canonical (.U8 5) = false := by
  refine ⟨?_, by decide, by decide⟩
  intro hv hwf
  cases hv <;>
    simp only [HeaderValue.WF] at hwf <;>
    simp only [HeaderValue.is_canonical, HeaderValue.to_u64,
      HeaderValue.width, HeaderValue.canonical] <;>
    split_ifs <;>
    simp [HeaderValue.width] <;>
    omega

/-- Witness for C4 at the decoded header value `U8 5`. -/
theorem is_canonical_detects_wider_tier_witness :
    HeaderValue.WF (.U8 5) ∧
    (HeaderValue.is_canonical (.U8 5) = false ↔
      (HeaderValue.canonical (HeaderValue.to_u64 (.U8 5))).width <
        HeaderValue.width (.U8 5)) :=
  ⟨by decide, is_canonical_detects_wider_tier.1 (.U8 5) (by decide)⟩

/-- The writer is append-only: the bytes `write_value` appends depend
only on the major type and the value, not on what is already in the
buffer. -/
theorem write_value_append (w : List u8) (m : Major) (hv : HeaderValue) :
    Writer.write_value w m hv = (Writer.write_value [] m hv).map (w ++ ·) := by
  unfold Writer.write_value
  cases h : hv.to_lead_content.to_byte <;> simp

/-- C5: `canonical(v)` holds the value `v` exactly, is well formed, and
picks the narrowest tier able to represent `v` (immediate below 24, then
the 1/2/4/8-byte tiers at `0x100`, `0x10000`, `0x100000000`); encoding a
`u64` appends bytes depending only on the value (so encoding the same
logical value twice yields identical bytes), and
`encode_to_bytes(&124u64)` is exactly `[0x18, 0x7c]`. -/
theorem canonical_picks_narrowest_tier :
    (∀ v : Nat, v < 2 ^ 64 →
      (HeaderValue.canonical v).to_u64 = v ∧
      HeaderValue.WF (HeaderValue.canonical v) ∧
      (∀ hv : HeaderValue, HeaderValue.WF hv → hv.to_u64 = v →
        (HeaderValue.canonical v).width ≤ hv.width)) ∧
    encode_to_bytes_u64 124 = some [0x18, 0x7c] ∧
    (∀ (w : List u8) (v : Nat),
      Writer.positive w ⟨HeaderValue.canonical v⟩ =
        (encode_to_bytes_u64 v).map (w ++ ·)) := by
  refine ⟨?_, by decide, ?_⟩
  · intro v hv
    refine ⟨?_, ?_, ?_⟩
    · unfold HeaderValue.canonical
      split_ifs <;> rfl
    · unfold HeaderValue.canonical
      split_ifs <;> simp only [HeaderValue.WF] <;> omega
    · intro hv1 hwf hval
      cases hv1 <;>
        simp only [HeaderValue.WF] at hwf <;>
        simp only [HeaderValue.to_u64] at hval <;>
        subst hval <;>
        unfold HeaderValue.canonical <;>
        split_ifs <;>
        simp only [HeaderValue.width] <;>
        omega
  · intro w v
    rw [Writer.positive, encode_to_bytes_u64, Writer.positive, Writer.new]
    exact write_value_append w .Positive (HeaderValue.canonical v)

/-- Witness for C5 at `v = 124` against the wider tier `U16 124`. -/
theorem canonical_picks_narrowest_tier_witness :
    (124 : Nat) < 2 ^ 64 ∧
    (HeaderValue.canonical 124).to_u64 = 124 ∧
    (HeaderValue.canonical 124).width ≤ HeaderValue.width (.U16 124) :=
  ⟨by decide,
   (canonical_picks_narrowest_tier.1 124 (by decide)).1,
   (canonical_picks_narrowest_tier.1 124 (by decide)).2.2 (.U16 124)
     (by decide) (by decide)⟩

/-- C6: a typed read that fails with a type mismatch does not advance the
cursor: every error outcome of `Reader::negative` leaves the reader
exactly as it was, and on a buffer positioned at a Positive item
`negative()` fails with `WrongExpectedType` while `positive()` on the
same reader still succeeds. -/
theorem type_mismatch_does_not_consume :
    (∀ (r : Reader) (e : ReaderError) (r1 : Reader),
      Reader.negative r = (perr e, r1) → r1 = r) ∧
    (∀ (r : Reader) (p : Positive) (r1 : Reader),
      Reader.positive r = (pok p, r1) →
      Reader.negative r =
        (perr (.WrongExpectedType .Negative .Positive), r) ∧
      Reader.positive r = (pok p, r1)) := by
  constructor
  · intro r e r1 h
    unfold Reader.negative at h
    split at h
    · injection h with h1 h2
      simp [perr] at h1
    · injection h with h1 h2
      exact h2.symm
    · split at h
      · injection h with h1 h2
        simp [pok, perr] at h1
      · injection h with h1 h2
        exact h2.symm
  · intro r p r1 h
    have hcopy := h
    unfold Reader.positive at h
    split at h
    · injection h with h1 h2
      simp [pok] at h1
    · injection h with h1 h2
      simp [pok, perr] at h1
    · next hdr adv heq =>
      split at h
      · next content =>
        refine ⟨?_, hcopy⟩
        unfold Reader.negative
        rw [heq]
        rfl
      · injection h with h1 h2
        simp [pok, perr] at h1

/-- Witness for C6 on the one-byte buffer `[0x01]` (a Positive item). -/
theorem type_mismatch_does_not_consume_witness :
    Reader.negative ⟨⟨[0x01], 0⟩⟩ =
      (perr (.WrongExpectedType .Negative .Positive), ⟨⟨[0x01], 0⟩⟩) ∧
    Reader.positive ⟨⟨[0x01], 0⟩⟩ = (pok ⟨.Imm 1⟩, ⟨⟨[0x01], 1⟩⟩) :=
  type_mismatch_does_not_consume.2 ⟨⟨[0x01], 0⟩⟩ ⟨.Imm 1⟩ ⟨⟨[0x01], 1⟩⟩
    (by decide)

/-! ### Bounds and totality of the header-reading helpers -/

/-- A successful `peek` is in bounds and returns exactly the requested
slice. -/
theorem peek_ok_spec {r : CborDataReader} {c : CborDataContext}
    {off n : Nat} {s : List u8} (h : r.peek c off n = .ok s) :
    (n = 0 ∧ s = []) ∨
    (r.index + off + n ≤ r.data.length ∧
      s = (r.data.drop (r.index + off)).take n ∧ s.length = n) := by
  unfold CborDataReader.peek at h
  by_cases h0 : n = 0
  · rw [if_pos h0] at h
    injection h with hh
    exact Or.inl ⟨h0, hh.symm⟩
  · rw [if_neg h0] at h
    by_cases h1 : r.remaining_bytes < off
    · rw [if_pos h1] at h
      exact Except.noConfusion h
    · rw [if_neg h1] at h
      by_cases h2 : n > r.remaining_bytes - off
      · rw [if_pos h2] at h
        exact Except.noConfusion h
      · rw [if_neg h2] at h
        injection h with hh
        unfold CborDataReader.remaining_bytes at h1 h2
        refine Or.inr ⟨by omega, hh.symm, ?_⟩
        rw [← hh]
        simp only [List.length_take, List.length_drop]
        omega

/-- `lead` never panics, and a successful `lead` means at least one byte
was available at the cursor. -/
theorem lead_spec (r : CborDataReader) :
    r.lead ≠ none ∧
    (∀ ld, r.lead = pok ld → r.index + 1 ≤ r.data.length) := by
  unfold CborDataReader.lead
  match hp : r.peek .Header 0 1 with
  | .error e => exact ⟨by simp [perr], fun ld h => by simp [perr, pok] at h⟩
  | .ok s =>
    rcases peek_ok_spec hp with ⟨h0, _⟩ | ⟨hb, hs, hlen⟩
    · cases h0
    · match s, hlen with
      | [b], _ =>
        constructor
        · cases hfb : Lead.from_byte b <;> simp [hfb, perr, pok]
        · intro ld _; omega

/-- `resolve_indirect` never panics, and success means the trailing bytes
were available. -/
theorem resolve_indirect_spec (r : CborDataReader) (il : IndirectLen) :
    r.resolve_indirect il ≠ none ∧
    (∀ iv, r.resolve_indirect il = pok iv →
      r.index + 1 + il.len_bytes ≤ r.data.length) := by
  cases il with
  | I1 =>
    unfold CborDataReader.resolve_indirect
    match hp : r.peek .IndirectLen 1 1 with
    | .error e => exact ⟨by simp [perr], fun iv h => by simp [perr, pok] at h⟩
    | .ok s =>
      rcases peek_ok_spec hp with ⟨h0, _⟩ | ⟨hb, hs, hlen⟩
      · cases h0
      · match s, hlen with
        | [a], _ =>
          exact ⟨by simp [pok], fun iv _ => by
            simpa [IndirectLen.len_bytes] using hb⟩
  | I2 =>
    unfold CborDataReader.resolve_indirect
    match hp : r.peek .IndirectLen 1 2 with
    | .error e => exact ⟨by simp [perr], fun iv h => by simp [perr, pok] at h⟩
    | .ok s =>
      rcases peek_ok_spec hp with ⟨h0, _⟩ | ⟨hb, hs, hlen⟩
      · cases h0
      · match s, hlen with
        | [a, b], _ =>
          exact ⟨by simp [pok], fun iv _ => by
            simpa [IndirectLen.len_bytes] using hb⟩
  | I4 =>
    unfold CborDataReader.resolve_indirect
    match hp : r.peek .IndirectLen 1 4 with
    | .error e => exact ⟨by simp [perr], fun iv h => by simp [perr, pok] at h⟩
    | .ok s =>
      rcases peek_ok_spec hp with ⟨h0, _⟩ | ⟨hb, hs, hlen⟩
      · cases h0
      · match s, hlen with
        | [a, b, c, d], _ =>
          exact ⟨by simp [pok], fun iv _ => by
            simpa [IndirectLen.len_bytes] using hb⟩
  | I8 =>
    unfold CborDataReader.resolve_indirect
    match hp : r.peek .IndirectLen 1 8 with
    | .error e => exact ⟨by simp [perr], fun iv h => by simp [perr, pok] at h⟩
    | .ok s =>
      rcases peek_ok_spec hp with ⟨h0, _⟩ | ⟨hb, hs, hlen⟩
      · cases h0
      · match s, hlen with
        | [a, b, c, d, e, f, g, hh], _ =>
          exact ⟨by simp [pok], fun iv _ => by
            simpa [IndirectLen.len_bytes] using hb⟩

/-- `header_parts` never panics, and success gives the advance bounds and
the correspondence between the indirect value and the lead's expectation. -/
theorem header_parts_spec (r : CborDataReader) :
    r.header_parts ≠ none ∧
    (∀ ld adv ival, r.header_parts = pok (ld, adv, ival) →
      1 ≤ adv ∧ r.index + adv ≤ r.data.length ∧
      (ival.isSome ↔ (ld.expected_extra).isSome)) := by
  unfold CborDataReader.header_parts
  match hl : r.lead with
  | none => exact absurd hl (lead_spec r).1
  | some (.error e) =>
    exact ⟨by simp [pbind, perr], fun ld adv ival h => by
      simp [pbind, perr, pok] at h⟩
  | some (.ok ld0) =>
    have hlb := (lead_spec r).2 ld0 hl
    match he : ld0.expected_extra with
    | none =>
      constructor
      · simp [pbind, he, pok]
      · intro ld adv ival h
        simp only [pbind, he, pok, Option.some.injEq, Except.ok.injEq,
          Prod.mk.injEq] at h
        obtain ⟨rfl, rfl, rfl⟩ := h
        simp [he, hlb]
    | some il =>
      match hri : r.resolve_indirect il with
      | none =>
        exact absurd hri (resolve_indirect_spec r il).1
      | some (.error e) =>
        exact ⟨by simp [pbind, he, hri, perr], fun ld adv ival h => by
          simp [pbind, he, hri, perr, pok] at h⟩
      | some (.ok iv) =>
        have hrb := (resolve_indirect_spec r il).2 iv hri
        constructor
        · simp [pbind, he, hri, pok]
        · intro ld adv ival h
          simp only [pbind, he, hri, pok, Option.some.injEq, Except.ok.injEq,
            Prod.mk.injEq] at h
          obtain ⟨rfl, rfl, rfl⟩ := h
          refine ⟨by omega, by omega, by simp [he]⟩

/-- `Header::from_parts` does not panic when the presence of the indirect
value matches the lead's expectation. -/
theorem from_parts_total {ld : Lead} {ival : Option IndirectValue}
    (h : ival.isSome ↔ (ld.expected_extra).isSome) :
    Header.from_parts ld ival ≠ none := by
  cases ld with
  | Positive c =>
    cases c <;> cases ival <;>
      simp_all [Lead.expected_extra, Content.expected_extra,
        Header.from_parts, resolve_value]
  | Negative c =>
    cases c <;> cases ival <;>
      simp_all [Lead.expected_extra, Content.expected_extra,
        Header.from_parts, resolve_value]
  | Tag c =>
    cases c <;> cases ival <;>
      simp_all [Lead.expected_extra, Content.expected_extra,
        Header.from_parts, resolve_value]
  | Bytes c =>
    cases c <;> cases ival <;>
      simp_all [Lead.expected_extra, ContentStream.expected_extra,
        Header.from_parts, resolve_value_stream]
  | Text c =>
    cases c <;> cases ival <;>
      simp_all [Lead.expected_extra, ContentStream.expected_extra,
        Header.from_parts, resolve_value_stream]
  | Array c =>
    cases c <;> cases ival <;>
      simp_all [Lead.expected_extra, ContentStream.expected_extra,
        Header.from_parts, resolve_value_stream]
  | Map c =>
    cases c <;> cases ival <;>
      simp_all [Lead.expected_extra, ContentStream.expected_extra,
        Header.from_parts, resolve_value_stream]
  | ByteI1 =>
    cases ival with
    | none => simp_all [Lead.expected_extra]
    | some iv => cases iv <;> simp [Header.from_parts, Header.other_payload]
  | FP16 =>
    cases ival with
    | none => simp_all [Lead.expected_extra]
    | some iv => cases iv <;> simp [Header.from_parts, Header.other_payload]
  | FP32 =>
    cases ival with
    | none => simp_all [Lead.expected_extra]
    | some iv => cases iv <;> simp [Header.from_parts, Header.other_payload]
  | FP64 =>
    cases ival with
    | none => simp_all [Lead.expected_extra]
    | some iv => cases iv <;> simp [Header.from_parts, Header.other_payload]
  | ByteImm v => simp [Header.from_parts]
  | False => simp [Header.from_parts]
  | True => simp [Header.from_parts]
  | Null => simp [Header.from_parts]
  | Undefined => simp [Header.from_parts]
  | Break => simp [Header.from_parts]

/-- A successful `consume` keeps the data, moves the cursor by exactly
`n`, and (for `n ≠ 0`) stays within the buffer. -/
theorem consume_spec {r : CborDataReader} {c : CborDataContext} {n : Nat}
    {dat : List u8} {r1 : CborDataReader}
    (h : r.consume c n = .ok (dat, r1)) :
    r1.data = r.data ∧ r1.index = r.index + n ∧
    (n = 0 ∨ r.index + n ≤ r.data.length) := by
  unfold CborDataReader.consume at h
  match hp : r.peek c 0 n with
  | .error e => rw [hp] at h; exact Except.noConfusion h
  | .ok s =>
    rw [hp] at h
    injection h with hh
    injection hh with hh1 hh2
    rcases peek_ok_spec hp with ⟨h0, _⟩ | ⟨hb, _, _⟩
    · exact ⟨by rw [← hh2]; rfl, by rw [← hh2]; rfl, Or.inl h0⟩
    · exact ⟨by rw [← hh2]; rfl, by rw [← hh2]; rfl, Or.inr (by omega)⟩

/-- `liftState` of a state-operation result satisfying the operation
contract: no panic, reader untouched, invariant `Ok` states. -/
theorem liftState_spec {v : Validator} {p : PRes StateError Ctx}
    (hp : POk p) :
    v.liftState p ≠ none ∧
    ∀ v1, v.liftState p = pok v1 →
      v1.reader = v.reader ∧ StateInv v1.state := by
  unfold Validator.liftState
  match hcase : p with
  | none => exact absurd rfl hp.1
  | some (.error e) =>
    exact ⟨by simp [perr], fun v1 h => by simp [perr, pok] at h⟩
  | some (.ok ctx) =>
    constructor
    · simp [pok]
    · intro v1 h
      simp only [pok, Option.some.injEq, Except.ok.injEq] at h
      subst h
      exact ⟨rfl, hp.2 ctx rfl⟩

/-- `consume_data_streamable`: no panic; on success the data is kept, the
cursor only moves forward and stays in bounds, and the state is kept. -/
theorem consume_data_streamable_spec (v : Validator)
    (hv : Option HeaderValue)
    (hidx : v.reader.index ≤ v.reader.data.length) :
    v.consume_data_streamable hv ≠ none ∧
    ∀ v1, v.consume_data_streamable hv = pok v1 →
      v1.reader.data = v.reader.data ∧
      v.reader.index ≤ v1.reader.index ∧
      v1.reader.index ≤ v1.reader.data.length ∧
      v1.state = v.state := by
  unfold Validator.consume_data_streamable
  cases hv with
  | none =>
    constructor
    · simp [pok]
    · intro v1 h
      simp only [pok, Option.some.injEq, Except.ok.injEq] at h
      subst h
      exact ⟨rfl, Nat.le_refl _, hidx, rfl⟩
  | some b =>
    dsimp only
    match hc : v.reader.consume .Content b.to_u64 with
    | .error e =>
      exact ⟨by simp [perr], fun v1 h => by simp [perr, pok] at h⟩
    | .ok (dat, rd) =>
      obtain ⟨hdata, hindex, hbound⟩ := consume_spec hc
      constructor
      · simp [pok]
      · intro v1 h
        simp only [pok, Option.some.injEq, Except.ok.injEq] at h
        subst h
        dsimp only
        refine ⟨hdata, by omega, ?_, rfl⟩
        rw [hdata]
        rcases hbound with h0 | hb
        · omega
        · omega

/-- `Validator::process_header` from an invariant state with an in-bounds
cursor: no panic, and every `Ok` outcome keeps the data, only moves the
cursor forward within bounds, and lands in an invariant state. -/
theorem process_header_spec (v : Validator) (h : Header)
    (hstate : StateInv v.state)
    (hidx : v.reader.index ≤ v.reader.data.length) :
    v.process_header h ≠ none ∧
    ∀ v1, v.process_header h = pok v1 →
      v1.reader.data = v.reader.data ∧
      v.reader.index ≤ v1.reader.index ∧
      v1.reader.index ≤ v1.reader.data.length ∧
      StateInv v1.state := by
  have hlift : ∀ (w : Validator) (p : PRes StateError Ctx), POk p →
      w.reader.data = v.reader.data →
      v.reader.index ≤ w.reader.index →
      w.reader.index ≤ w.reader.data.length →
      w.liftState p ≠ none ∧
      ∀ v1, w.liftState p = pok v1 →
        v1.reader.data = v.reader.data ∧
        v.reader.index ≤ v1.reader.index ∧
        v1.reader.index ≤ v1.reader.data.length ∧
        StateInv v1.state := by
    intro w p hp hdata hmono hbound
    obtain ⟨hnp, hok⟩ := liftState_spec (v := w) hp
    refine ⟨hnp, fun v1 h1 => ?_⟩
    obtain ⟨hr, hs⟩ := hok v1 h1
    rw [hr]
    exact ⟨hdata, hmono, hbound, hs⟩
  have hsimple := SOp.apply_spec .simple v.state hstate
  have htag := SOp.apply_spec .tag v.state hstate
  have hbrk := SOp.apply_spec .brk v.state hstate
  cases h with
  | Positive p => exact hlift v _ hsimple rfl (Nat.le_refl _) hidx
  | Negative n => exact hlift v _ hsimple rfl (Nat.le_refl _) hidx
  | Constant c => exact hlift v _ hsimple rfl (Nat.le_refl _) hidx
  | Byte b => exact hlift v _ hsimple rfl (Nat.le_refl _) hidx
  | Float f => exact hlift v _ hsimple rfl (Nat.le_refl _) hidx
  | Tag t => exact hlift v _ htag rfl (Nat.le_refl _) hidx
  | Break => exact hlift v _ hbrk rfl (Nat.le_refl _) hidx
  | Array c =>
    exact hlift v _ (SOp.apply_spec (.array c) v.state hstate) rfl
      (Nat.le_refl _) hidx
  | Map c =>
    exact hlift v _ (SOp.apply_spec (.map c) v.state hstate) rfl
      (Nat.le_refl _) hidx
  | Bytes c =>
    obtain ⟨hcn, hcok⟩ := consume_data_streamable_spec v c hidx
    show Validator.process_header v (.Bytes c) ≠ none ∧ _
    unfold Validator.process_header
    dsimp only
    match hc : v.consume_data_streamable c with
    | none => exact absurd hc hcn
    | some (.error e) =>
      exact ⟨by simp [pbind, perr], fun v1 h1 => by
        simp [pbind, perr, pok] at h1⟩
    | some (.ok w) =>
      obtain ⟨hdata, hmono, hbound, hst⟩ := hcok w hc
      have hw := hlift w (State.bytes c w.state)
        (by rw [hst]; exact SOp.apply_spec (.bytes c) v.state hstate)
        hdata hmono hbound
      constructor
      · simpa [pbind] using hw.1
      · intro v1 h1
        exact hw.2 v1 (by simpa [pbind] using h1)
  | Text c =>
    obtain ⟨hcn, hcok⟩ := consume_data_streamable_spec v c hidx
    show Validator.process_header v (.Text c) ≠ none ∧ _
    unfold Validator.process_header
    dsimp only
    match hc : v.consume_data_streamable c with
    | none => exact absurd hc hcn
    | some (.error e) =>
      exact ⟨by simp [pbind, perr], fun v1 h1 => by
        simp [pbind, perr, pok] at h1⟩
    | some (.ok w) =>
      obtain ⟨hdata, hmono, hbound, hst⟩ := hcok w hc
      have hw := hlift w (State.text c w.state)
        (by rw [hst]; exact SOp.apply_spec (.text c) v.state hstate)
        hdata hmono hbound
      constructor
      · simpa [pbind] using hw.1
      · intro v1 h1
        exact hw.2 v1 (by simpa [pbind] using h1)

/-- The master specification of the `Validator::next` loop: from an
invariant state with an in-bounds cursor it never panics, the supplied
fuel is sufficient, and a successful outcome returns exactly the bytes
the cursor moved over (the span is `data[start..index]` and the length is
the displacement), ending with the empty (accepting) frame stack. -/
theorem nextLoop_spec :
    ∀ (fuel start : Nat) (v : Validator),
      StateInv v.state → v.reader.index ≤ v.reader.data.length →
      start ≤ v.reader.index →
      Validator.nextLoop fuel start v ≠ .panicked ∧
      (v.reader.data.length + 1 - v.reader.index ≤ fuel →
        Validator.nextLoop fuel start v ≠ .fuelOut) ∧
      (∀ s l v1, Validator.nextLoop fuel start v = .ok s l v1 →
        v1.reader.data = v.reader.data ∧
        v.reader.index ≤ v1.reader.index ∧
        v1.reader.index ≤ v1.reader.data.length ∧
        start ≤ v1.reader.index ∧
        s = (v1.reader.data.take v1.reader.index).drop start ∧
        l = v1.reader.index - start ∧
        v1.state = []) := by
  intro fuel
  induction fuel with
  | zero =>
    intro start v hst hidx hstart
    refine ⟨by simp [Validator.nextLoop], ?_, ?_⟩
    · intro hf
      exact absurd hf (by omega)
    · intro s l v1 h
      simp [Validator.nextLoop] at h
  | succ f ih =>
    intro start v hst hidx hstart
    obtain ⟨hhp_n, hhp_ok⟩ := header_parts_spec v.reader
    match hhp : v.reader.header_parts with
    | none => exact absurd hhp hhp_n
    | some (.error e) =>
      have hred : Validator.nextLoop (f + 1) start v = .err e.toValidateError := by
        simp [Validator.nextLoop, hhp]
      refine ⟨by simp [hred], fun _ => by simp [hred], ?_⟩
      intro s l v1 h
      rw [hred] at h
      exact LoopRes.noConfusion h
    | some (.ok (ld, adv, ival)) =>
      obtain ⟨hadv1, hadvle, hiff⟩ := hhp_ok ld adv ival hhp
      match hfp : Header.from_parts ld ival with
      | none => exact absurd hfp (from_parts_total hiff)
      | some header =>
        have hst1 : StateInv (Validator.mk (v.reader.advance adv) v.state).state := hst
        have hidx1 : (Validator.mk (v.reader.advance adv) v.state).reader.index ≤
            (Validator.mk (v.reader.advance adv) v.state).reader.data.length := by
          simpa [CborDataReader.advance] using hadvle
        obtain ⟨hph_n, hph_ok⟩ :=
          process_header_spec (Validator.mk (v.reader.advance adv) v.state)
            header hst1 hidx1
        match hph : Validator.process_header
            (Validator.mk (v.reader.advance adv) v.state) header with
        | none => exact absurd hph hph_n
        | some (.error e) =>
          have hred : Validator.nextLoop (f + 1) start v = .err e := by
            simp [Validator.nextLoop, hhp, hfp, hph]
          refine ⟨by simp [hred], fun _ => by simp [hred], ?_⟩
          intro s l v1 h
          rw [hred] at h
          exact LoopRes.noConfusion h
        | some (.ok v2) =>
          obtain ⟨h2data, h2mono, h2bound, h2state⟩ := hph_ok v2 hph
          have hlen2 : v2.reader.data.length = v.reader.data.length := by
            rw [h2data]; rfl
          have h2mono' : v.reader.index + adv ≤ v2.reader.index := by
            simpa [CborDataReader.advance] using h2mono
          by_cases hacc : State.acceptable v2.state = true
          · have hstate2 : v2.state = [] := by
              simpa [State.acceptable, List.isEmpty_iff] using hacc
            have hsl : v2.reader.slice_from start =
                some ((v2.reader.data.take v2.reader.index).drop start) := by
              unfold CborDataReader.slice_from
              rw [if_pos ⟨by omega, h2bound⟩]
            have hred : Validator.nextLoop (f + 1) start v =
                .ok ((v2.reader.data.take v2.reader.index).drop start)
                  (v2.reader.index - start) v2 := by
              simp [Validator.nextLoop, hhp, hfp, hph, hacc, hsl]
            refine ⟨by simp [hred], fun _ => by simp [hred], ?_⟩
            intro s l v1 h
            rw [hred] at h
            injection h with h1 h2 h3
            subst h1; subst h2; subst h3
            exact ⟨by rw [h2data]; rfl, by omega, h2bound, by omega, rfl, rfl,
              hstate2⟩
          · have hred : Validator.nextLoop (f + 1) start v =
                Validator.nextLoop f start v2 := by
              simp [Validator.nextLoop, hhp, hfp, hph, hacc]
            have hrec := ih start v2 h2state h2bound (by omega)
            rw [hred]
            refine ⟨hrec.1, ?_, ?_⟩
            · intro hf
              exact hrec.2.1 (by omega)
            · intro s l v1 h
              obtain ⟨c1, c2, c3, c4, c5, c6, c7⟩ := hrec.2.2 s l v1 h
              exact ⟨by rw [c1, h2data]; rfl, by omega, c3, c4, c5, c6, c7⟩

/-- The invariant a `Validator` maintains between `next()` calls. -/
def ValInv (v : Validator) : Prop :=
  StateInv v.state ∧ v.reader.index ≤ v.reader.data.length

/-- `Validator::next` from an invariant validator: never a panic, never
out of fuel, and a successful call returns exactly the span of consumed
bytes, its length being the cursor displacement, with the state machine
back in the accepting (empty) state. -/
theorem next_spec (v : Validator) (h : ValInv v) :
    Validator.next v ≠ .panicked ∧ Validator.next v ≠ .fuelOut ∧
    ∀ s l v1, Validator.next v = .ok s l v1 →
      v1.reader.data = v.reader.data ∧
      v.reader.index ≤ v1.reader.index ∧
      s = (v.reader.data.take v1.reader.index).drop v.reader.index ∧
      l = v1.reader.index - v.reader.index ∧
      v1.state = [] ∧ ValInv v1 := by
  obtain ⟨h1, h2, h3⟩ :=
    nextLoop_spec (v.reader.data.length + 1 - v.reader.index)
      v.reader.index v h.1 h.2 (Nat.le_refl _)
  refine ⟨h1, h2 (Nat.le_refl _), ?_⟩
  intro s l v1 hok
  obtain ⟨c1, c2, c3, c4, c5, c6, c7⟩ := h3 s l v1 hok
  exact ⟨c1, c2, by rw [c5, c1], c6, c7, ⟨by rw [c7]; exact StateInv.nil, c3⟩⟩

/-- `Reader::header` never panics: for any buffer and cursor position it
returns a header or a typed error. -/
theorem reader_header_total (r : Reader) : r.header ≠ none := by
  unfold Reader.header
  obtain ⟨hn, hok⟩ := header_parts_spec r.reader
  match hhp : r.reader.header_parts with
  | none => exact absurd hhp hn
  | some (.error e) => simp [perr]
  | some (.ok (ld, adv, ival)) =>
    obtain ⟨_, _, hiff⟩ := hok ld adv ival hhp
    match hfp : Header.from_parts ld ival with
    | none => exact absurd hfp (from_parts_total hiff)
    | some hdr => simp [hfp, pok]

/-- `Reader::peek_type` never panics. -/
theorem reader_peek_type_total (r : Reader) : r.peek_type ≠ none := by
  unfold Reader.peek_type
  obtain ⟨hn, _⟩ := lead_spec r.reader
  match hl : r.reader.lead with
  | none => exact absurd hl hn
  | some (.error e) => simp [perr]
  | some (.ok ld) => simp [pok]

/-- A successful `Reader::header` keeps the announced advance within the
buffer. -/
theorem reader_header_ok_bound {r : Reader} {hdr : Header} {adv : Nat}
    (h : r.header = some (.ok (hdr, adv))) :
    r.reader.index + adv ≤ r.reader.data.length := by
  unfold Reader.header at h
  obtain ⟨hn, hok⟩ := header_parts_spec r.reader
  match hhp : r.reader.header_parts with
  | none => exact absurd hhp hn
  | some (.error e) =>
    rw [hhp] at h
    dsimp only at h
    simp [perr] at h
  | some (.ok (ld, adv0, ival)) =>
    rw [hhp] at h
    dsimp only at h
    obtain ⟨_, hb, hiff⟩ := hok ld adv0 ival hhp
    match hfp : Header.from_parts ld ival with
    | none =>
      rw [hfp] at h
      dsimp only at h
      exact Option.noConfusion h
    | some hdr0 =>
      rw [hfp] at h
      dsimp only at h
      simp only [pok, Option.some.injEq, Except.ok.injEq, Prod.mk.injEq] at h
      obtain ⟨-, rfl⟩ := h
      exact hb

/-- `Reader::advance_data` never panics, and a successful payload skip
keeps the data and only moves the cursor forward within the buffer. -/
theorem advance_data_spec (rd : CborDataReader) (h : Header)
    (hidx : rd.index ≤ rd.data.length) :
    Reader.advance_data rd h ≠ none ∧
    ∀ rd1, Reader.advance_data rd h = pok rd1 →
      rd1.data = rd.data ∧ rd.index ≤ rd1.index ∧
      rd1.index ≤ rd1.data.length := by
  have hdef : (pok rd : PRes ReaderError CborDataReader) ≠ none ∧
      ∀ rd1, (pok rd : PRes ReaderError CborDataReader) = pok rd1 →
        rd1.data = rd.data ∧ rd.index ≤ rd1.index ∧
        rd1.index ≤ rd1.data.length := by
    refine ⟨by simp [pok], fun rd1 h1 => ?_⟩
    simp only [pok, Option.some.injEq, Except.ok.injEq] at h1
    subst h1
    exact ⟨rfl, Nat.le_refl _, hidx⟩
  have hcons : ∀ b : HeaderValue,
      ((match rd.consume .Content b.to_u64 with
        | .error e => perr (.DataMissing e)
        | .ok (_, rd1) => pok rd1) : PRes ReaderError CborDataReader) ≠
          none ∧
      ∀ rd1,
        ((match rd.consume .Content b.to_u64 with
          | .error e => perr (.DataMissing e)
          | .ok (_, rd1) => pok rd1) : PRes ReaderError CborDataReader) =
            pok rd1 →
        rd1.data = rd.data ∧ rd.index ≤ rd1.index ∧
        rd1.index ≤ rd1.data.length := by
    intro b
    match hc : rd.consume .Content b.to_u64 with
    | .error e =>
      exact ⟨by simp [perr], fun rd1 h1 => by simp [perr, pok] at h1⟩
    | .ok (dat, rdc) =>
      obtain ⟨hdata, hindex, hbound⟩ := consume_spec hc
      refine ⟨by simp [pok], fun rd1 h1 => ?_⟩
      simp only [pok, Option.some.injEq, Except.ok.injEq] at h1
      subst h1
      refine ⟨hdata, by omega, ?_⟩
      rw [hdata]
      rcases hbound with h0 | hb <;> omega
  cases h with
  | Bytes c =>
    cases c with
    | none => exact hdef
    | some b => exact hcons b
  | Text c =>
    cases c with
    | none => exact hdef
    | some b => exact hcons b
  | Positive p => exact hdef
  | Negative n => exact hdef
  | Array c => exact hdef
  | Map c => exact hdef
  | Tag v => exact hdef
  | Constant k => exact hdef
  | Float f => exact hdef
  | Byte b => exact hdef
  | Break => exact hdef

/-- `Reader`'s dispatch into the state machine obeys the state-operation
contract from any invariant state. -/
theorem state_process_header_POk (state : Ctx) (h : Header)
    (hinv : StateInv state) : POk (Reader.state_process_header state h) := by
  cases h with
  | Positive p => exact advance_check_POk hinv
  | Negative n => exact advance_check_POk hinv
  | Bytes c => exact item_streamable_spec c .Bytes hinv
  | Text c => exact item_streamable_spec c .Text hinv
  | Array c => exact struct_start_spec c .Array _ hinv
  | Map c => exact struct_start_spec c (.Map false) _ hinv
  | Tag v => exact tag_spec hinv
  | Constant k => exact advance_check_POk hinv
  | Float f => exact advance_check_POk hinv
  | Byte b => exact advance_check_POk hinv
  | Break => exact brk_spec hinv

/-- The `cbor_slice_neutral` loop never panics, never runs out of the
fuel its caller supplies, and a captured span strictly advances the
cursor within the buffer. -/
theorem neutralLoop_spec :
    ∀ (fuel start : Nat) (rd : CborDataReader) (state : Ctx),
      StateInv state → rd.index ≤ rd.data.length → start ≤ rd.index →
      Reader.neutralLoop fuel start rd state ≠ .panicked ∧
      (rd.data.length + 1 - rd.index ≤ fuel →
        Reader.neutralLoop fuel start rd state ≠ .fuelOut) ∧
      (∀ s rd1, Reader.neutralLoop fuel start rd state = .ok s rd1 →
        rd1.data = rd.data ∧ rd.index < rd1.index ∧
        rd1.index ≤ rd1.data.length) := by
  intro fuel
  induction fuel with
  | zero =>
    intro start rd state hst hidx hstart
    refine ⟨by simp [Reader.neutralLoop], ?_, ?_⟩
    · intro hf
      exact absurd hf (by omega)
    · intro s rd1 h
      simp [Reader.neutralLoop] at h
  | succ f ih =>
    intro start rd state hst hidx hstart
    obtain ⟨hhp_n, hhp_ok⟩ := header_parts_spec rd
    match hhp : rd.header_parts with
    | none => exact absurd hhp hhp_n
    | some (.error e) =>
      have hred : Reader.neutralLoop (f + 1) start rd state =
          .err e.toReaderError := by
        simp [Reader.neutralLoop, hhp]
      refine ⟨by simp [hred], fun _ => by simp [hred], ?_⟩
      intro s rd1 h
      rw [hred] at h
      exact NeutralRes.noConfusion h
    | some (.ok (ld, adv, ival)) =>
      obtain ⟨hadv1, hadvle, hiff⟩ := hhp_ok ld adv ival hhp
      match hfp : Header.from_parts ld ival with
      | none => exact absurd hfp (from_parts_total hiff)
      | some header =>
        have hidx1 : (rd.advance adv).index ≤
            (rd.advance adv).data.length := by
          simpa [CborDataReader.advance] using hadvle
        obtain ⟨had_n, had_ok⟩ :=
          advance_data_spec (rd.advance adv) header hidx1
        match had : Reader.advance_data (rd.advance adv) header with
        | none => exact absurd had had_n
        | some (.error e) =>
          have hred : Reader.neutralLoop (f + 1) start rd state = .err e := by
            simp [Reader.neutralLoop, hhp, hfp, had]
          refine ⟨by simp [hred], fun _ => by simp [hred], ?_⟩
          intro s rd1 h
          rw [hred] at h
          exact NeutralRes.noConfusion h
        | some (.ok rd2) =>
          obtain ⟨h2data, h2mono, h2bound⟩ := had_ok rd2 had
          have h2data' : rd2.data = rd.data := by
            rw [h2data]; rfl
          have h2mono' : rd.index + adv ≤ rd2.index := by
            simpa [CborDataReader.advance] using h2mono
          have hsp := state_process_header_POk state header hst
          match hph : Reader.state_process_header state header with
          | none => exact absurd hph hsp.1
          | some (.error e) =>
            have hred : Reader.neutralLoop (f + 1) start rd state =
                .err (.StateError e) := by
              simp [Reader.neutralLoop, hhp, hfp, had, hph]
            refine ⟨by simp [hred], fun _ => by simp [hred], ?_⟩
            intro s rd1 h
            rw [hred] at h
            exact NeutralRes.noConfusion h
          | some (.ok state1) =>
            have hst1 : StateInv state1 := hsp.2 state1 hph
            by_cases hacc : State.acceptable state1 = true
            · have hsl : rd2.slice_from start =
                  some ((rd2.data.take rd2.index).drop start) := by
                unfold CborDataReader.slice_from
                rw [if_pos ⟨by omega, h2bound⟩]
              have hred : Reader.neutralLoop (f + 1) start rd state =
                  .ok ((rd2.data.take rd2.index).drop start) rd2 := by
                simp [Reader.neutralLoop, hhp, hfp, had, hph, hacc, hsl]
              refine ⟨by simp [hred], fun _ => by simp [hred], ?_⟩
              intro s rd1 h
              rw [hred] at h
              injection h with h1 h2
              subst h2
              exact ⟨h2data', by omega, h2bound⟩
            · have hred : Reader.neutralLoop (f + 1) start rd state =
                  Reader.neutralLoop f start rd2 state1 := by
                simp [Reader.neutralLoop, hhp, hfp, had, hph, hacc]
              have hlen2 : rd2.data.length = rd.data.length := by
                rw [h2data']
              have hrec := ih start rd2 state1 hst1 h2bound (by omega)
              rw [hred]
              refine ⟨hrec.1, ?_, ?_⟩
              · intro hf
                exact hrec.2.1 (by omega)
              · intro s rd1 h
                obtain ⟨c1, c2, c3⟩ := hrec.2.2 s rd1 h
                exact ⟨by rw [c1, h2data'], by omega, c3⟩

/-- `Reader::cbor_slice_neutral` never panics nor exhausts its fuel, and
a captured span strictly advances the cursor within the buffer. -/
theorem cbor_slice_neutral_spec (rd : CborDataReader)
    (hidx : rd.index ≤ rd.data.length) :
    Reader.cbor_slice_neutral rd ≠ .panicked ∧
    Reader.cbor_slice_neutral rd ≠ .fuelOut ∧
    ∀ s rd1, Reader.cbor_slice_neutral rd = .ok s rd1 →
      rd1.data = rd.data ∧ rd.index < rd1.index ∧
      rd1.index ≤ rd1.data.length := by
  obtain ⟨h1, h2, h3⟩ := neutralLoop_spec (rd.data.length + 1 - rd.index)
    rd.index rd State.new StateInv.nil hidx (Nat.le_refl _)
  exact ⟨h1, h2 (Nat.le_refl _), h3⟩

/-- Sequencing in the panic layer cannot introduce a panic. -/
theorem pbind_ne_none {E A B : Type} {p : PRes E A} {f : A → PRes E B}
    (hp : p ≠ none) (hf : ∀ a, f a ≠ none) : pbind p f ≠ none := by
  match hpp : p with
  | none => exact absurd rfl hp
  | some (.error e) => simp [pbind]
  | some (.ok a) => simpa [pbind] using hf a

/-- The definite-length element loop of `Reader::array` never panics
while the cursor is in bounds. -/
theorem arrayElemsDef_total :
    ∀ (sz : Nat) (rd : CborDataReader), rd.index ≤ rd.data.length →
      Reader.arrayElemsDef sz rd ≠ none := by
  intro sz
  induction sz with
  | zero =>
    intro rd hidx
    simp [Reader.arrayElemsDef, pok]
  | succ n ih =>
    intro rd hidx
    obtain ⟨hp, hfo, hok⟩ := cbor_slice_neutral_spec rd hidx
    match hc : Reader.cbor_slice_neutral rd with
    | .panicked => exact absurd hc hp
    | .fuelOut => exact absurd hc hfo
    | .err e => simp [Reader.arrayElemsDef, hc, perr]
    | .ok s rd1 =>
      obtain ⟨c1, c2, c3⟩ := hok s rd1 hc
      have hrec := ih rd1 c3
      simp only [Reader.arrayElemsDef, hc]
      exact pbind_ne_none hrec (fun out => by simp [pok])

/-- The indefinite-length element loop of `Reader::array` never panics:
every captured span strictly advances the cursor, so the fuel the caller
supplies is enough to reach the break. -/
theorem arrayElemsIndef_total :
    ∀ (fuel : Nat) (rd : CborDataReader), rd.index ≤ rd.data.length →
      rd.data.length + 1 - rd.index ≤ fuel →
      Reader.arrayElemsIndef fuel rd ≠ none := by
  intro fuel
  induction fuel with
  | zero =>
    intro rd hidx hf
    exact absurd hf (by omega)
  | succ f ih =>
    intro rd hidx hf
    have hpt := reader_peek_type_total ⟨rd⟩
    match hty : Reader.peek_type ⟨rd⟩ with
    | none => exact absurd hty hpt
    | some (.error e) =>
      simp [Reader.arrayElemsIndef, hty, pbind]
    | some (.ok ty) =>
      by_cases hb : ty = Ty.Break
      · subst hb
        simp [Reader.arrayElemsIndef, hty, pbind, pok]
      · obtain ⟨hp, hfo, hok⟩ := cbor_slice_neutral_spec rd hidx
        match hc : Reader.cbor_slice_neutral rd with
        | .panicked => exact absurd hc hp
        | .fuelOut => exact absurd hc hfo
        | .err e =>
          simp [Reader.arrayElemsIndef, hty, pbind, hb, hc, perr]
        | .ok s rd1 =>
          obtain ⟨c1, c2, c3⟩ := hok s rd1 hc
          have hrec := ih rd1 c3 (by rw [c1]; omega)
          simp only [Reader.arrayElemsIndef, hty, pbind]
          rw [if_neg hb]
          simp only [hc]
          exact pbind_ne_none hrec (fun out => by simp [pok])

/-- `Reader::array` never panics: on a wrong type it returns the typed
mismatch error without touching the buffer, and on an `Array` header both
element loops stay within the panic-free fragment. -/
theorem reader_array_total (r : Reader) : Reader.array r ≠ none := by
  unfold Reader.array
  have hh := reader_header_total r
  match hhd : r.header with
  | none => exact absurd hhd hh
  | some (.error e) => simp [perr]
  | some (.ok (hdr, adv)) =>
    have hbound := reader_header_ok_bound hhd
    cases hdr with
    | Array content =>
      have hidx1 : (r.reader.advance adv).index ≤
          (r.reader.advance adv).data.length := by
        simpa [CborDataReader.advance] using hbound
      cases content with
      | none =>
        dsimp only
        have hne := arrayElemsIndef_total
          ((r.reader.advance adv).data.length + 1 -
            (r.reader.advance adv).index)
          (r.reader.advance adv) hidx1 (Nat.le_refl _)
        exact pbind_ne_none hne (fun out => by simp [pok])
      | some len =>
        dsimp only
        have hne := arrayElemsDef_total len.to_u64 (r.reader.advance adv) hidx1
        exact pbind_ne_none hne (fun out => by simp [pok])
    | Positive p => simp [perr]
    | Negative n => simp [perr]
    | Bytes c => simp [perr]
    | Text c => simp [perr]
    | Map c => simp [perr]
    | Tag v => simp [perr]
    | Constant k => simp [perr]
    | Float f => simp [perr]
    | Byte b => simp [perr]
    | Break => simp [perr]

/-- C2 (amended): for every *non-empty* input buffer, however malformed
or truncated, constructing a `Validator` succeeds in the invariant state,
every `next()` call returns `Ok` or a typed error — never a panic (the
panic layer, which models the `assert!`/`unreachable!`/`panic!` sites of
the Reader/Writer/StateMachine, is unreachable) — and an `Ok` call
re-establishes the invariant for the following call; likewise every typed
`Reader` parsing operation embedded here — `header`, `peek_type`,
`positive`, `negative` and the span-collecting `array`, whose nested
`cbor_slice_neutral`, definite and indefinite element loops and
`slice_from` calls all stay inside the panic-free fragment — never panics
on any buffer.  (On the *empty* buffer, `Reader::new`/`Validator::new`
panic: see the counterexample.) -/
theorem parsing_never_panics_on_nonempty_input :
    (∀ data : List u8, data ≠ [] →
      ∃ v, Validator.new data = some v ∧ ValInv v) ∧
    (∀ v : Validator, ValInv v →
      Validator.next v ≠ .panicked ∧ Validator.next v ≠ .fuelOut ∧
      ∀ s l v1, Validator.next v = .ok s l v1 → ValInv v1) ∧
    (∀ r : Reader,
      r.header ≠ none ∧ Reader.peek_type r ≠ none ∧
      (Reader.positive r).1 ≠ none ∧ (Reader.negative r).1 ≠ none ∧
      Reader.array r ≠ none) := by
  refine ⟨?_, ?_, ?_⟩
  · intro data hne
    refine ⟨⟨CborDataReader.new data, State.new⟩, ?_, StateInv.nil, ?_⟩
    · unfold Validator.new
      rw [if_pos]
      cases data with
      | nil => exact absurd rfl hne
      | cons b bs => simp
    · simp [CborDataReader.new]
  · intro v hv
    obtain ⟨h1, h2, h3⟩ := next_spec v hv
    exact ⟨h1, h2, fun s l v1 hok => ((h3 s l v1 hok).2.2.2.2.2)⟩
  · intro r
    have hh := reader_header_total r
    refine ⟨hh, reader_peek_type_total r, ?_, ?_, reader_array_total r⟩
    · unfold Reader.positive
      match hhd : r.header with
      | none => exact absurd hhd hh
      | some (.error e) => simp [perr]
      | some (.ok (hdr, adv)) =>
        cases hdr <;> simp [pok, perr]
    · unfold Reader.negative
      match hhd : r.header with
      | none => exact absurd hhd hh
      | some (.error e) => simp [perr]
      | some (.ok (hdr, adv)) =>
        cases hdr <;> simp [pok, perr]

/-- Counterexample to C2 as stated: on the empty buffer, `Reader::new`
and `Validator::new` panic (`assert!(data.len() > 0)`) instead of
returning a typed error — a panic caused by untrusted input. -/
theorem reader_validator_new_panic_on_empty :
    Reader.new [] = none ∧ Validator.new [] = none := by
  decide

/-- Witness for C2 (amended) on the non-empty malformed buffer `[0xff]`,
on a fresh reader over `[0x00]`, and on the array accessor over
`[0x9f, 0x01, 0xff]`. -/
theorem parsing_never_panics_witness :
    (∃ v, Validator.new [0xff] = some v ∧ ValInv v) ∧
    Validator.next ⟨⟨[0xff], 0⟩, []⟩ ≠ .panicked ∧
    (Reader.positive ⟨⟨[0x00], 0⟩⟩).1 ≠ none ∧
    Reader.array ⟨⟨[0x9f, 0x01, 0xff], 0⟩⟩ ≠ none :=
  ⟨parsing_never_panics_on_nonempty_input.1 [0xff] (by decide),
   (parsing_never_panics_on_nonempty_input.2.1 ⟨⟨[0xff], 0⟩, []⟩
     ⟨StateInv.nil, by decide⟩).1,
   (parsing_never_panics_on_nonempty_input.2.2 ⟨⟨[0x00], 0⟩⟩).2.2.1,
   (parsing_never_panics_on_nonempty_input.2.2
     ⟨⟨[0x9f, 0x01, 0xff], 0⟩⟩).2.2.2.2⟩

/-! ### Locality of the validator: appending bytes after a complete item
and shifting past consumed bytes do not change its behavior. -/

/-- Fuel is only a bound: once the loop finishes within its fuel, more
fuel does not change the result. -/
theorem nextLoop_fuel_mono :
    ∀ (fuel start : Nat) (v : Validator),
      Validator.nextLoop fuel start v ≠ .fuelOut →
      ∀ fuel2, fuel ≤ fuel2 →
        Validator.nextLoop fuel2 start v = Validator.nextLoop fuel start v := by
  intro fuel
  induction fuel with
  | zero => intro start v h; exact absurd rfl h
  | succ f ih =>
    intro start v h fuel2 hle
    obtain ⟨g, rfl⟩ : ∃ g, fuel2 = g + 1 := ⟨fuel2 - 1, by omega⟩
    match hhp : v.reader.header_parts with
    | none => simp [Validator.nextLoop, hhp]
    | some (.error e) => simp [Validator.nextLoop, hhp]
    | some (.ok (ld, adv, ival)) =>
      match hfp : Header.from_parts ld ival with
      | none => simp [Validator.nextLoop, hhp, hfp]
      | some header =>
        match hph : Validator.process_header
            (Validator.mk (v.reader.advance adv) v.state) header with
        | none => simp [Validator.nextLoop, hhp, hfp, hph]
        | some (.error e) => simp [Validator.nextLoop, hhp, hfp, hph]
        | some (.ok v2) =>
          by_cases hacc : State.acceptable v2.state = true
          · simp [Validator.nextLoop, hhp, hfp, hph, hacc]
          · have hred1 : Validator.nextLoop (f + 1) start v =
                Validator.nextLoop f start v2 := by
              simp [Validator.nextLoop, hhp, hfp, hph, hacc]
            have hred2 : Validator.nextLoop (g + 1) start v =
                Validator.nextLoop g start v2 := by
              simp [Validator.nextLoop, hhp, hfp, hph, hacc]
            rw [hred1] at h
            rw [hred1, hred2]
            exact ih start v2 h g (by omega)

/-- Append extra bytes to the buffer under a validator, keeping cursor
and state. -/
def vapp (e : List u8) (v : Validator) : Validator :=
  ⟨⟨v.reader.data ++ e, v.reader.index⟩, v.state⟩

/-- A successful `peek` still succeeds, with the same slice, after the
buffer is extended. -/
theorem peek_append {d : List u8} {i : Nat} {c : CborDataContext}
    {off n : Nat} {s : List u8} (e : List u8)
    (h : CborDataReader.peek ⟨d, i⟩ c off n = .ok s) :
    CborDataReader.peek ⟨d ++ e, i⟩ c off n = .ok s := by
  rcases peek_ok_spec h with ⟨h0, rfl⟩ | ⟨hb, hs, hlen⟩
  · unfold CborDataReader.peek
    rw [if_pos h0]
  · dsimp only at hb hs
    have hi : i + off ≤ d.length := by omega
    have hn : n ≤ d.length - (i + off) := by omega
    unfold CborDataReader.peek
    unfold CborDataReader.peek at h
    by_cases h0 : n = 0
    · rw [if_pos h0] at h ⊢
      exact h
    · rw [if_neg h0]
      rw [if_neg (by
        simp only [CborDataReader.remaining_bytes, List.length_append]
        omega)]
      rw [if_neg (by
        simp only [CborDataReader.remaining_bytes, List.length_append]
        omega)]
      rw [hs]
      have hdrop : (d ++ e).drop (i + off) = d.drop (i + off) ++ e :=
        List.drop_append_of_le_length hi
      rw [show (⟨d ++ e, i⟩ : CborDataReader).data = d ++ e from rfl,
        show (⟨d ++ e, i⟩ : CborDataReader).index = i from rfl, hdrop,
        List.take_append_of_le_length (by
          simp only [List.length_drop]; omega)]

/-- `lead` success survives buffer extension. -/
theorem lead_append {d : List u8} {i : Nat} {ld : Lead} (e : List u8)
    (h : CborDataReader.lead ⟨d, i⟩ = pok ld) :
    CborDataReader.lead ⟨d ++ e, i⟩ = pok ld := by
  unfold CborDataReader.lead at h ⊢
  match hp : CborDataReader.peek ⟨d, i⟩ .Header 0 1 with
  | .error e1 => rw [hp] at h; simp [perr, pok] at h
  | .ok s =>
    rw [hp] at h
    rw [peek_append e hp]
    exact h

/-- `resolve_indirect` success survives buffer extension. -/
theorem resolve_indirect_append {d : List u8} {i : Nat}
    {il : IndirectLen} {iv : IndirectValue} (e : List u8)
    (h : CborDataReader.resolve_indirect ⟨d, i⟩ il = pok iv) :
    CborDataReader.resolve_indirect ⟨d ++ e, i⟩ il = pok iv := by
  cases il with
  | I1 =>
    unfold CborDataReader.resolve_indirect at h ⊢
    dsimp only at h ⊢
    match hp : CborDataReader.peek ⟨d, i⟩ .IndirectLen 1 1 with
    | .error e1 => rw [hp] at h; simp [perr, pok] at h
    | .ok s => rw [hp] at h; rw [peek_append e hp]; exact h
  | I2 =>
    unfold CborDataReader.resolve_indirect at h ⊢
    dsimp only at h ⊢
    match hp : CborDataReader.peek ⟨d, i⟩ .IndirectLen 1 2 with
    | .error e1 => rw [hp] at h; simp [perr, pok] at h
    | .ok s => rw [hp] at h; rw [peek_append e hp]; exact h
  | I4 =>
    unfold CborDataReader.resolve_indirect at h ⊢
    dsimp only at h ⊢
    match hp : CborDataReader.peek ⟨d, i⟩ .IndirectLen 1 4 with
    | .error e1 => rw [hp] at h; simp [perr, pok] at h
    | .ok s => rw [hp] at h; rw [peek_append e hp]; exact h
  | I8 =>
    unfold CborDataReader.resolve_indirect at h ⊢
    dsimp only at h ⊢
    match hp : CborDataReader.peek ⟨d, i⟩ .IndirectLen 1 8 with
    | .error e1 => rw [hp] at h; simp [perr, pok] at h
    | .ok s => rw [hp] at h; rw [peek_append e hp]; exact h

/-- `header_parts` success survives buffer extension. -/
theorem header_parts_append {d : List u8} {i : Nat}
    {ld : Lead} {adv : Nat} {ival : Option IndirectValue} (e : List u8)
    (h : CborDataReader.header_parts ⟨d, i⟩ = pok (ld, adv, ival)) :
    CborDataReader.header_parts ⟨d ++ e, i⟩ = pok (ld, adv, ival) := by
  unfold CborDataReader.header_parts at h ⊢
  match hl : CborDataReader.lead ⟨d, i⟩ with
  | none => rw [hl] at h; simp [pbind, pok] at h
  | some (.error e1) => rw [hl] at h; simp [pbind, pok] at h
  | some (.ok ld0) =>
    rw [hl] at h
    rw [lead_append e hl]
    simp only [pbind, pok] at h ⊢
    match he : ld0.expected_extra with
    | none =>
      simp only [he] at h ⊢
      exact h
    | some il =>
      simp only [he] at h ⊢
      match hri : CborDataReader.resolve_indirect ⟨d, i⟩ il with
      | none => rw [hri] at h; simp [pbind, pok] at h
      | some (.error e1) => rw [hri] at h; simp [pbind, pok] at h
      | some (.ok iv) =>
        rw [hri] at h
        rw [resolve_indirect_append e hri]
        simp only [pbind, pok] at h ⊢
        exact h

/-- `consume` success survives buffer extension. -/
theorem consume_append {d : List u8} {i : Nat} {c : CborDataContext}
    {n : Nat} {dat : List u8} {r1 : CborDataReader} (e : List u8)
    (h : CborDataReader.consume ⟨d, i⟩ c n = .ok (dat, r1)) :
    CborDataReader.consume ⟨d ++ e, i⟩ c n =
      .ok (dat, ⟨d ++ e, r1.index⟩) := by
  unfold CborDataReader.consume at h ⊢
  match hp : CborDataReader.peek ⟨d, i⟩ c 0 n with
  | .error e1 => rw [hp] at h; exact Except.noConfusion h
  | .ok s =>
    rw [hp] at h
    rw [peek_append e hp]
    injection h with hh
    injection hh with hh1 hh2
    subst hh1
    rw [← hh2]
    rfl

/-- `consume_data_streamable` success survives buffer extension. -/
theorem consume_data_streamable_append {v v1 : Validator}
    {c : Option HeaderValue} (e : List u8)
    (h : v.consume_data_streamable c = pok v1) :
    (vapp e v).consume_data_streamable c = pok (vapp e v1) := by
  unfold Validator.consume_data_streamable at h ⊢
  cases c with
  | none =>
    simp only [pok, Option.some.injEq, Except.ok.injEq] at h
    subst h
    rfl
  | some b =>
    dsimp only at h ⊢
    match hc : CborDataReader.consume v.reader .Content b.to_u64 with
    | .error e1 => rw [hc] at h; simp [perr, pok] at h
    | .ok (dat, rd) =>
      rw [hc] at h
      simp only [pok, Option.some.injEq, Except.ok.injEq] at h
      subst h
      have hc' : CborDataReader.consume ⟨v.reader.data, v.reader.index⟩
          .Content b.to_u64 = .ok (dat, rd) := hc
      have := consume_append e hc'
      show (match CborDataReader.consume (vapp e v).reader .Content
          b.to_u64 with
        | .error e1 => perr (ValidateError.DataMissing e1)
        | .ok (_, rd1) => pok (Validator.mk rd1 v.state)) = _
      have hrd : (vapp e v).reader = ⟨v.reader.data ++ e, v.reader.index⟩ :=
        rfl
      rw [hrd, this]
      have hrdd : rd.data = v.reader.data := (consume_spec hc).1
      show pok (Validator.mk ⟨v.reader.data ++ e, rd.index⟩ v.state) =
          pok (vapp e (Validator.mk rd v.state))
      unfold vapp
      dsimp only
      rw [hrdd]

/-- `process_header` success survives buffer extension. -/
theorem process_header_append {v v1 : Validator} {h : Header}
    (e : List u8) (hp : v.process_header h = pok v1) :
    (vapp e v).process_header h = pok (vapp e v1) := by
  have hstate : ∀ (w : Validator) (p : PRes StateError Ctx),
      w.liftState p = pok v1 → (vapp e w).liftState p = pok (vapp e v1) := by
    intro w p hlift
    unfold Validator.liftState at hlift ⊢
    match p with
    | none => simp [pok] at hlift
    | some (.error e1) => simp [perr, pok] at hlift
    | some (.ok ctx) =>
      simp only [pok, Option.some.injEq, Except.ok.injEq] at hlift
      subst hlift
      rfl
  cases h with
  | Positive p => exact hstate v _ hp
  | Negative n => exact hstate v _ hp
  | Constant c => exact hstate v _ hp
  | Byte b => exact hstate v _ hp
  | Float f => exact hstate v _ hp
  | Tag t => exact hstate v _ hp
  | Break => exact hstate v _ hp
  | Array c => exact hstate v _ hp
  | Map c => exact hstate v _ hp
  | Bytes c =>
    unfold Validator.process_header at hp ⊢
    dsimp only at hp ⊢
    match hc : v.consume_data_streamable c with
    | none => rw [hc] at hp; simp [pbind, pok] at hp
    | some (.error e1) => rw [hc] at hp; simp [pbind, perr, pok] at hp
    | some (.ok w) =>
      rw [hc] at hp
      simp only [pbind] at hp
      rw [consume_data_streamable_append e hc]
      simp only [pbind]
      exact hstate w _ hp
  | Text c =>
    unfold Validator.process_header at hp ⊢
    dsimp only at hp ⊢
    match hc : v.consume_data_streamable c with
    | none => rw [hc] at hp; simp [pbind, pok] at hp
    | some (.error e1) => rw [hc] at hp; simp [pbind, perr, pok] at hp
    | some (.ok w) =>
      rw [hc] at hp
      simp only [pbind] at hp
      rw [consume_data_streamable_append e hc]
      simp only [pbind]
      exact hstate w _ hp

/-- A successful `Validator::next` loop run is unchanged by appending
bytes after the buffer it consumed. -/
theorem nextLoop_append (e : List u8) :
    ∀ (fuel start : Nat) (v : Validator) (s : List u8) (l : Nat)
      (v1 : Validator),
      Validator.nextLoop fuel start v = .ok s l v1 →
      Validator.nextLoop fuel start (vapp e v) = .ok s l (vapp e v1) := by
  intro fuel
  induction fuel with
  | zero =>
    intro start v s l v1 h
    simp [Validator.nextLoop] at h
  | succ f ih =>
    intro start v s l v1 h
    match hhp : v.reader.header_parts with
    | none =>
      have hr : Validator.nextLoop (f + 1) start v = .panicked := by
        simp [Validator.nextLoop, hhp]
      rw [hr] at h
      exact LoopRes.noConfusion h
    | some (.error e1) =>
      have hr : Validator.nextLoop (f + 1) start v = .err e1.toValidateError := by
        simp [Validator.nextLoop, hhp]
      rw [hr] at h
      exact LoopRes.noConfusion h
    | some (.ok (ld, adv, ival)) =>
      have happ : (vapp e v).reader.header_parts = pok (ld, adv, ival) :=
        header_parts_append e hhp
      match hfp : Header.from_parts ld ival with
      | none =>
        have hr : Validator.nextLoop (f + 1) start v = .panicked := by
          simp [Validator.nextLoop, hhp, hfp]
        rw [hr] at h
        exact LoopRes.noConfusion h
      | some header =>
        match hph : Validator.process_header
            (Validator.mk (v.reader.advance adv) v.state) header with
        | none =>
          have hr : Validator.nextLoop (f + 1) start v = .panicked := by
            simp [Validator.nextLoop, hhp, hfp, hph]
          rw [hr] at h
          exact LoopRes.noConfusion h
        | some (.error e1) =>
          have hr : Validator.nextLoop (f + 1) start v = .err e1 := by
            simp [Validator.nextLoop, hhp, hfp, hph]
          rw [hr] at h
          exact LoopRes.noConfusion h
        | some (.ok v2) =>
          have hph2 : Validator.process_header
              (Validator.mk ((vapp e v).reader.advance adv) (vapp e v).state)
              header = pok (vapp e v2) :=
            process_header_append e hph
          by_cases hacc : State.acceptable v2.state = true
          · have hr : Validator.nextLoop (f + 1) start v =
                (match v2.reader.slice_from start with
                 | none => LoopRes.panicked
                 | some valid =>
                   LoopRes.ok valid (v2.reader.index - start) v2) := by
              simp [Validator.nextLoop, hhp, hfp, hph, hacc]
            rw [hr] at h
            match hsl : v2.reader.slice_from start with
            | none =>
              rw [hsl] at h
              exact LoopRes.noConfusion h
            | some valid =>
              rw [hsl] at h
              injection h with h1 h2 h3
              subst h1; subst h2; subst h3
              have hcond : start ≤ v2.reader.index ∧
                  v2.reader.index ≤ v2.reader.data.length := by
                by_contra hcon
                unfold CborDataReader.slice_from at hsl
                rw [if_neg hcon] at hsl
                exact Option.noConfusion hsl
              have hvalid : valid =
                  (v2.reader.data.take v2.reader.index).drop start := by
                unfold CborDataReader.slice_from at hsl
                rw [if_pos hcond] at hsl
                injection hsl with hh
                exact hh.symm
              have hsl2 : (vapp e v2).reader.slice_from start = some valid := by
                unfold CborDataReader.slice_from
                rw [if_pos ⟨hcond.1, by
                  show v2.reader.index ≤ (v2.reader.data ++ e).length
                  simp only [List.length_append]
                  omega⟩]
                rw [hvalid]
                show some (((v2.reader.data ++ e).take v2.reader.index).drop
                  start) = _
                rw [List.take_append_of_le_length hcond.2]
              have hacc2 : State.acceptable (vapp e v2).state = true := hacc
              have hr2 : Validator.nextLoop (f + 1) start (vapp e v) =
                  .ok valid ((vapp e v2).reader.index - start) (vapp e v2) := by
                simp [Validator.nextLoop, happ, pok, hfp, hph2, hacc2, hsl2]
              rw [hr2]
              rfl
          · have hr : Validator.nextLoop (f + 1) start v =
                Validator.nextLoop f start v2 := by
              simp [Validator.nextLoop, hhp, hfp, hph, hacc]
            rw [hr] at h
            have hacc2 : ¬ State.acceptable (vapp e v2).state = true := hacc
            have hr2 : Validator.nextLoop (f + 1) start (vapp e v) =
                Validator.nextLoop f start (vapp e v2) := by
              simp [Validator.nextLoop, happ, pok, hfp, hph2, hacc2]
            rw [hr2]
            exact ih start v2 s l v1 h

/-- Shift a validator past `d` bytes already consumed in front of its
buffer. -/
def vshift (d : List u8) (v : Validator) : Validator :=
  ⟨⟨d ++ v.reader.data, d.length + v.reader.index⟩, v.state⟩

/-- `peek` only looks at the buffer from the cursor on: reading after a
prefix of `d` bytes behaves exactly like reading the suffix alone. -/
theorem peek_shift (d e : List u8) (i : Nat) (c : CborDataContext)
    (off n : Nat) :
    CborDataReader.peek ⟨d ++ e, d.length + i⟩ c off n =
      CborDataReader.peek ⟨e, i⟩ c off n := by
  unfold CborDataReader.peek
  have hrem : (⟨d ++ e, d.length + i⟩ : CborDataReader).remaining_bytes =
      (⟨e, i⟩ : CborDataReader).remaining_bytes := by
    simp only [CborDataReader.remaining_bytes, List.length_append]
    omega
  rw [hrem]
  split_ifs <;> try rfl
  show Except.ok (((d ++ e).drop (d.length + i + off)).take n) = _
  rw [Nat.add_assoc, List.drop_append]

/-- `lead` after a consumed prefix equals `lead` on the suffix. -/
theorem lead_shift (d e : List u8) (i : Nat) :
    CborDataReader.lead ⟨d ++ e, d.length + i⟩ =
      CborDataReader.lead ⟨e, i⟩ := by
  unfold CborDataReader.lead
  rw [peek_shift]

/-- `resolve_indirect` after a consumed prefix equals it on the suffix. -/
theorem resolve_indirect_shift (d e : List u8) (i : Nat) (il : IndirectLen) :
    CborDataReader.resolve_indirect ⟨d ++ e, d.length + i⟩ il =
      CborDataReader.resolve_indirect ⟨e, i⟩ il := by
  cases il <;>
    (unfold CborDataReader.resolve_indirect
     dsimp only
     rw [peek_shift])

/-- `header_parts` after a consumed prefix equals it on the suffix. -/
theorem header_parts_shift (d e : List u8) (i : Nat) :
    CborDataReader.header_parts ⟨d ++ e, d.length + i⟩ =
      CborDataReader.header_parts ⟨e, i⟩ := by
  unfold CborDataReader.header_parts
  rw [lead_shift]
  congr 1
  funext ld
  match ld.expected_extra with
  | none => rfl
  | some il =>
    dsimp only
    rw [resolve_indirect_shift]

/-- A successful `consume` shifts along with a consumed prefix. -/
theorem consume_shift_ok {e : List u8} {i : Nat} {c : CborDataContext}
    {n : Nat} {dat : List u8} {r1 : CborDataReader} (d : List u8)
    (h : CborDataReader.consume ⟨e, i⟩ c n = .ok (dat, r1)) :
    CborDataReader.consume ⟨d ++ e, d.length + i⟩ c n =
      .ok (dat, ⟨d ++ e, d.length + r1.index⟩) := by
  unfold CborDataReader.consume at h ⊢
  rw [peek_shift]
  match hp : CborDataReader.peek ⟨e, i⟩ c 0 n with
  | .error e1 => rw [hp] at h; exact Except.noConfusion h
  | .ok s =>
    simp only [Except.map] at h ⊢
    rw [hp] at h
    injection h with hh
    injection hh with hh1 hh2
    subst hh1
    rw [← hh2]
    simp only [CborDataReader.advance, Except.ok.injEq, Prod.mk.injEq,
      CborDataReader.mk.injEq, true_and]
    omega

/-- A successful `consume_data_streamable` shifts along with a prefix. -/
theorem consume_data_streamable_shift_ok {v v1 : Validator}
    {c : Option HeaderValue} (d : List u8)
    (h : v.consume_data_streamable c = pok v1) :
    (vshift d v).consume_data_streamable c = pok (vshift d v1) := by
  unfold Validator.consume_data_streamable at h ⊢
  cases c with
  | none =>
    simp only [pok, Option.some.injEq, Except.ok.injEq] at h
    subst h
    rfl
  | some b =>
    dsimp only at h ⊢
    match hc : CborDataReader.consume v.reader .Content b.to_u64 with
    | .error e1 => rw [hc] at h; simp [perr, pok] at h
    | .ok (dat, rd) =>
      rw [hc] at h
      simp only [pok, Option.some.injEq, Except.ok.injEq] at h
      subst h
      have hc' : CborDataReader.consume ⟨v.reader.data, v.reader.index⟩
          .Content b.to_u64 = .ok (dat, rd) := hc
      have hshift := consume_shift_ok d hc'
      have hrd : (vshift d v).reader =
          ⟨d ++ v.reader.data, d.length + v.reader.index⟩ := rfl
      rw [hrd, hshift]
      have hrdd : rd.data = v.reader.data := (consume_spec hc).1
      show pok (Validator.mk ⟨d ++ v.reader.data, d.length + rd.index⟩
          v.state) = pok (vshift d (Validator.mk rd v.state))
      unfold vshift
      dsimp only
      rw [hrdd]

/-- A successful `process_header` shifts along with a prefix. -/
theorem process_header_shift_ok {v v1 : Validator} {h : Header}
    (d : List u8) (hp : v.process_header h = pok v1) :
    (vshift d v).process_header h = pok (vshift d v1) := by
  have hstate : ∀ (w : Validator) (p : PRes StateError Ctx),
      w.liftState p = pok v1 →
      (vshift d w).liftState p = pok (vshift d v1) := by
    intro w p hlift
    unfold Validator.liftState at hlift ⊢
    match p with
    | none => simp [pok] at hlift
    | some (.error e1) => simp [perr, pok] at hlift
    | some (.ok ctx) =>
      simp only [pok, Option.some.injEq, Except.ok.injEq] at hlift
      subst hlift
      rfl
  cases h with
  | Positive p => exact hstate v _ hp
  | Negative n => exact hstate v _ hp
  | Constant c => exact hstate v _ hp
  | Byte b => exact hstate v _ hp
  | Float f => exact hstate v _ hp
  | Tag t => exact hstate v _ hp
  | Break => exact hstate v _ hp
  | Array c => exact hstate v _ hp
  | Map c => exact hstate v _ hp
  | Bytes c =>
    unfold Validator.process_header at hp ⊢
    dsimp only at hp ⊢
    match hc : v.consume_data_streamable c with
    | none => rw [hc] at hp; simp [pbind, pok] at hp
    | some (.error e1) => rw [hc] at hp; simp [pbind, perr, pok] at hp
    | some (.ok w) =>
      rw [hc] at hp
      simp only [pbind] at hp
      rw [consume_data_streamable_shift_ok d hc]
      simp only [pbind]
      exact hstate w _ hp
  | Text c =>
    unfold Validator.process_header at hp ⊢
    dsimp only at hp ⊢
    match hc : v.consume_data_streamable c with
    | none => rw [hc] at hp; simp [pbind, pok] at hp
    | some (.error e1) => rw [hc] at hp; simp [pbind, perr, pok] at hp
    | some (.ok w) =>
      rw [hc] at hp
      simp only [pbind] at hp
      rw [consume_data_streamable_shift_ok d hc]
      simp only [pbind]
      exact hstate w _ hp

/-- A successful `Validator::next` loop run shifts along with a consumed
prefix. -/
theorem nextLoop_shift_ok (d : List u8) :
    ∀ (fuel start : Nat) (v : Validator) (s : List u8) (l : Nat)
      (v1 : Validator),
      Validator.nextLoop fuel start v = .ok s l v1 →
      Validator.nextLoop fuel (d.length + start) (vshift d v) =
        .ok s l (vshift d v1) := by
  intro fuel
  induction fuel with
  | zero =>
    intro start v s l v1 h
    simp [Validator.nextLoop] at h
  | succ f ih =>
    intro start v s l v1 h
    match hhp : v.reader.header_parts with
    | none =>
      have hr : Validator.nextLoop (f + 1) start v = .panicked := by
        simp [Validator.nextLoop, hhp]
      rw [hr] at h
      exact LoopRes.noConfusion h
    | some (.error e1) =>
      have hr : Validator.nextLoop (f + 1) start v =
          .err e1.toValidateError := by
        simp [Validator.nextLoop, hhp]
      rw [hr] at h
      exact LoopRes.noConfusion h
    | some (.ok (ld, adv, ival)) =>
      have hhp' : CborDataReader.header_parts
          ⟨v.reader.data, v.reader.index⟩ = pok (ld, adv, ival) := hhp
      have hshift : (vshift d v).reader.header_parts = pok (ld, adv, ival) := by
        show CborDataReader.header_parts
          ⟨d ++ v.reader.data, d.length + v.reader.index⟩ = _
        rw [header_parts_shift]
        exact hhp'
      match hfp : Header.from_parts ld ival with
      | none =>
        have hr : Validator.nextLoop (f + 1) start v = .panicked := by
          simp [Validator.nextLoop, hhp, hfp]
        rw [hr] at h
        exact LoopRes.noConfusion h
      | some header =>
        match hph : Validator.process_header
            (Validator.mk (v.reader.advance adv) v.state) header with
        | none =>
          have hr : Validator.nextLoop (f + 1) start v = .panicked := by
            simp [Validator.nextLoop, hhp, hfp, hph]
          rw [hr] at h
          exact LoopRes.noConfusion h
        | some (.error e1) =>
          have hr : Validator.nextLoop (f + 1) start v = .err e1 := by
            simp [Validator.nextLoop, hhp, hfp, hph]
          rw [hr] at h
          exact LoopRes.noConfusion h
        | some (.ok v2) =>
          have hph2 := process_header_shift_ok d hph
          have hph3 : Validator.process_header
              (Validator.mk ((vshift d v).reader.advance adv)
                (vshift d v).state) header = pok (vshift d v2) := by
            have hassoc : d.length + v.reader.index + adv =
                d.length + (v.reader.index + adv) := Nat.add_assoc _ _ _
            show Validator.process_header
              (Validator.mk ⟨d ++ v.reader.data,
                d.length + v.reader.index + adv⟩ v.state) header = _
            rw [hassoc]
            exact hph2
          by_cases hacc : State.acceptable v2.state = true
          · have hr : Validator.nextLoop (f + 1) start v =
                (match v2.reader.slice_from start with
                 | none => LoopRes.panicked
                 | some valid =>
                   LoopRes.ok valid (v2.reader.index - start) v2) := by
              simp [Validator.nextLoop, hhp, hfp, hph, hacc]
            rw [hr] at h
            match hsl : v2.reader.slice_from start with
            | none =>
              rw [hsl] at h
              exact LoopRes.noConfusion h
            | some valid =>
              rw [hsl] at h
              injection h with h1 h2 h3
              subst h1; subst h2; subst h3
              have hcond : start ≤ v2.reader.index ∧
                  v2.reader.index ≤ v2.reader.data.length := by
                by_contra hcon
                unfold CborDataReader.slice_from at hsl
                rw [if_neg hcon] at hsl
                exact Option.noConfusion hsl
              have hvalid : valid =
                  (v2.reader.data.take v2.reader.index).drop start := by
                unfold CborDataReader.slice_from at hsl
                rw [if_pos hcond] at hsl
                injection hsl with hh
                exact hh.symm
              have hsl2 : (vshift d v2).reader.slice_from
                  (d.length + start) = some valid := by
                unfold CborDataReader.slice_from
                rw [if_pos ⟨by
                    show d.length + start ≤ d.length + v2.reader.index
                    omega, by
                    show d.length + v2.reader.index ≤
                      (d ++ v2.reader.data).length
                    simp only [List.length_append]
                    omega⟩]
                rw [hvalid]
                show some (((d ++ v2.reader.data).take
                  (d.length + v2.reader.index)).drop (d.length + start)) = _
                rw [List.take_append, List.drop_append]
              have hacc2 : State.acceptable (vshift d v2).state = true := hacc
              have hr2 : Validator.nextLoop (f + 1) (d.length + start)
                  (vshift d v) =
                  .ok valid ((vshift d v2).reader.index - (d.length + start))
                    (vshift d v2) := by
                simp [Validator.nextLoop, hshift, pok, hfp, hph3, hacc2, hsl2]
              rw [hr2]
              have : (vshift d v2).reader.index - (d.length + start) =
                  v2.reader.index - start := by
                show d.length + v2.reader.index - (d.length + start) = _
                omega
              rw [this]
          · have hr : Validator.nextLoop (f + 1) start v =
                Validator.nextLoop f start v2 := by
              simp [Validator.nextLoop, hhp, hfp, hph, hacc]
            rw [hr] at h
            have hacc2 : ¬ State.acceptable (vshift d v2).state = true := hacc
            have hr2 : Validator.nextLoop (f + 1) (d.length + start)
                (vshift d v) =
                Validator.nextLoop f (d.length + start) (vshift d v2) := by
              simp [Validator.nextLoop, hshift, pok, hfp, hph3, hacc2]
            rw [hr2]
            exact ih start v2 s l v1 h

/-- A buffer that `Validator::next`, started fresh, validates in full:
the returned span is the whole buffer and the cursor ends at its end. -/
abbrev CompleteItem (a : List u8) : Prop :=
  Validator.next ⟨⟨a, 0⟩, []⟩ = .ok a a.length ⟨⟨a, a.length⟩, []⟩

/-- Successive `next()` calls: the spans of `k` successful calls, `none`
if any of them fails. -/
def Validator.spans : Nat → Validator → Option (List (List u8))
  | 0, _ => some []
  | k + 1, v =>
    match Validator.next v with
    | .ok s _ v1 => (Validator.spans k v1).map (s :: ·)
    | _ => none

/-- A successful `Validator::next` shifts along with a consumed prefix. -/
theorem next_shift_ok {v : Validator} {s : List u8} {l : Nat}
    {v1 : Validator} (d : List u8) (h : Validator.next v = .ok s l v1) :
    Validator.next (vshift d v) = .ok s l (vshift d v1) := by
  unfold Validator.next at h ⊢
  have hfe : (vshift d v).reader.data.length + 1 - (vshift d v).reader.index =
      v.reader.data.length + 1 - v.reader.index := by
    show (d ++ v.reader.data).length + 1 - (d.length + v.reader.index) = _
    simp only [List.length_append]
    omega
  rw [hfe]
  have hidx : (vshift d v).reader.index = d.length + v.reader.index := rfl
  rw [hidx]
  exact nextLoop_shift_ok d _ _ _ _ _ _ h

/-- A successful run of `k` `next()` calls shifts along with a consumed
prefix, returning the same spans. -/
theorem spans_shift_ok (d : List u8) :
    ∀ (k : Nat) (v : Validator) (out : List (List u8)),
      Validator.spans k v = some out →
      Validator.spans k (vshift d v) = some out := by
  intro k
  induction k with
  | zero => intro v out h; exact h
  | succ n ih =>
    intro v out h
    unfold Validator.spans at h ⊢
    match hn : Validator.next v with
    | .ok s l v1 =>
      rw [hn] at h
      rw [next_shift_ok d hn]
      dsimp only at h ⊢
      match hs : Validator.spans n v1 with
      | none => rw [hs] at h; simp at h
      | some out1 =>
        rw [hs] at h
        rw [ih v1 out1 hs]
        exact h
    | .panicked => rw [hn] at h; simp at h
    | .fuelOut => rw [hn] at h; simp at h
    | .err e => rw [hn] at h; simp at h

/-- On a concatenation of complete well-formed items, successive `next()`
calls return exactly the items' spans, in order. -/
theorem spans_concat :
    ∀ items : List (List u8), (∀ a ∈ items, CompleteItem a) →
      Validator.spans items.length
        ⟨⟨items.foldr (· ++ ·) [], 0⟩, []⟩ = some items := by
  intro items
  induction items with
  | nil => intro _; rfl
  | cons a rest ih =>
    intro hall
    have hcomp : CompleteItem a := hall a (List.mem_cons_self a rest)
    have hrest : ∀ b ∈ rest, CompleteItem b := fun b hb =>
      hall b (List.mem_cons_of_mem a hb)
    have hC := ih hrest
    have hcomp' : Validator.nextLoop (a.length + 1 - 0) 0 ⟨⟨a, 0⟩, []⟩ =
        .ok a a.length ⟨⟨a, a.length⟩, []⟩ := hcomp
    have happ := nextLoop_append (rest.foldr (· ++ ·) []) _ _ _ _ _ _ hcomp'
    have happ2 : Validator.nextLoop (a.length + 1 - 0) 0
        ⟨⟨a ++ rest.foldr (· ++ ·) [], 0⟩, []⟩ =
        .ok a a.length ⟨⟨a ++ rest.foldr (· ++ ·) [], a.length⟩, []⟩ := happ
    have hnf : Validator.nextLoop (a.length + 1 - 0) 0
        ⟨⟨a ++ rest.foldr (· ++ ·) [], 0⟩, []⟩ ≠ .fuelOut := by
      rw [happ2]
      simp
    have hmono := nextLoop_fuel_mono _ 0 _ hnf
      ((a ++ rest.foldr (· ++ ·) []).length + 1 - 0)
      (by simp only [List.length_append]; omega)
    have hbig : Validator.next ⟨⟨a ++ rest.foldr (· ++ ·) [], 0⟩, []⟩ =
        .ok a a.length ⟨⟨a ++ rest.foldr (· ++ ·) [], a.length⟩, []⟩ := by
      unfold Validator.next
      dsimp only
      rw [hmono]
      exact happ2
    have hshift : Validator.spans rest.length
        ⟨⟨a ++ rest.foldr (· ++ ·) [], a.length⟩, []⟩ = some rest :=
      spans_shift_ok a rest.length ⟨⟨rest.foldr (· ++ ·) [], 0⟩, []⟩ rest hC
    show Validator.spans (rest.length + 1)
      ⟨⟨a ++ rest.foldr (· ++ ·) [], 0⟩, []⟩ = some (a :: rest)
    unfold Validator.spans
    rw [hbig]
    dsimp only
    rw [hshift]
    rfl

/-- C9: (exactness) from any invariant validator, a successful `next()`
returns the validated span and a byte length equal to the cursor
displacement, the span being exactly the consumed bytes
`data[start..end]`, with the state machine back in the accepting state;
(framing) on a buffer that is a concatenation of complete well-formed
CBOR items, successive `next()` calls return each item's exact span in
order. -/
theorem validator_next_exact_spans_and_framing :
    (∀ (v : Validator) (s : List u8) (l : Nat) (v1 : Validator),
      StateInv v.state → v.reader.index ≤ v.reader.data.length →
      Validator.next v = .ok s l v1 →
      v1.reader.data = v.reader.data ∧
      v.reader.index ≤ v1.reader.index ∧
      s = (v.reader.data.take v1.reader.index).drop v.reader.index ∧
      l = v1.reader.index - v.reader.index ∧
      v1.state = []) ∧
    (∀ items : List (List u8), (∀ a ∈ items, CompleteItem a) →
      Validator.spans items.length
        ⟨⟨items.foldr (· ++ ·) [], 0⟩, []⟩ = some items) := by
  constructor
  · intro v s l v1 hst hidx hok
    obtain ⟨_, _, h3⟩ := next_spec v ⟨hst, hidx⟩
    obtain ⟨c1, c2, c3, c4, c5, _⟩ := h3 s l v1 hok
    exact ⟨c1, c2, c3, c4, c5⟩
  · exact spans_concat

/-- Witness for C9 on the buffer `[0x01, 0x20]`, the concatenation of the
complete items `[0x01]` (positive 1) and `[0x20]` (negative -1). -/
theorem validator_next_exact_spans_and_framing_witness :
    (Validator.next ⟨⟨[0x01, 0x20], 0⟩, []⟩ =
      .ok [0x01] 1 ⟨⟨[0x01, 0x20], 1⟩, []⟩ →
      [0x01] = (([0x01, 0x20] : List u8).take 1).drop 0) ∧
    (∀ a ∈ [[0x01], [0x20]], CompleteItem a) ∧
    Validator.spans 2 ⟨⟨[0x01, 0x20], 0⟩, []⟩ = some [[0x01], [0x20]] := by
  refine ⟨?_, by decide, ?_⟩
  · intro hok
    exact (validator_next_exact_spans_and_framing.1 ⟨⟨[0x01, 0x20], 0⟩, []⟩
      [0x01] 1 ⟨⟨[0x01, 0x20], 1⟩, []⟩ StateInv.nil (by decide) hok).2.2.1
  · exact validator_next_exact_spans_and_framing.2 [[0x01], [0x20]]
      (by decide)

end Cbored
